import Mathlib

/-!
Verification of the smart-merge subsystem, writer and schema validator of a
schema-driven code generator (Go source).  Go strings are embedded as
`List Char`; Go slices as `List`; Go maps as association lists; fallible Go
functions return `Except String _` or `Option _`.  Functions keep the names
of the Go functions they embed wherever Lean allows.
-/

set_option maxRecDepth 10000

namespace AbpGen

/-- Strings of the Go program, embedded as lists of characters. -/
abbrev Str := List Char

/-- Character class of Go's `regexp` `\s` (RE2: tab, newline, form feed,
carriage return, space). -/
def isSpaceRe (c : Char) : Bool :=
  c = ' ' || c = '\t' || c = '\n' || c = '\x0c' || c = '\r'

/-- Character class of Go's `unicode.IsSpace` restricted to ASCII, as used by
`strings.TrimSpace` and `strings.Fields` (adds vertical tab to `\s`). -/
def isSpaceGo (c : Char) : Bool :=
  c = ' ' || c = '\t' || c = '\n' || c = '\x0b' || c = '\x0c' || c = '\r'

/-- Character class of Go's `regexp` `\w` (`[0-9A-Za-z_]`). -/
def isWordChar (c : Char) : Bool :=
  ('0' ≤ c && c ≤ '9') || ('A' ≤ c && c ≤ 'Z') || ('a' ≤ c && c ≤ 'z') || c = '_'

/-- Embedding of `strings.HasPrefix`. -/
def hasPrefixStr : Str → Str → Bool
  | _, [] => true
  | [], _ :: _ => false
  | c :: cs, d :: ds => c = d && hasPrefixStr cs ds

/-- Embedding of `strings.Index` restricted to found/not-found: the first
position at which `sub` occurs in `s`, if any. -/
def indexOfStr : Str → Str → Option Nat
  | s, sub =>
    if hasPrefixStr s sub then some 0
    else match s with
      | [] => none
      | _ :: rest => (indexOfStr rest sub).map (· + 1)

/-- Embedding of `strings.Contains`. -/
def strContains (s sub : Str) : Bool :=
  (indexOfStr s sub).isSome

/-- Embedding of `strings.HasSuffix`. -/
def hasSuffixStr (s suf : Str) : Bool :=
  hasPrefixStr s.reverse suf.reverse

/-- Embedding of `strings.TrimSpace` (ASCII fragment). -/
def trimSpace (s : Str) : Str :=
  ((s.dropWhile isSpaceGo).reverse.dropWhile isSpaceGo).reverse

/-- Embedding of `strings.Split(s, "\n")`. -/
def splitLines (s : Str) : List Str :=
  s.splitOn '\n'

/-- Embedding of `strings.Join(lines, "\n")`. -/
def joinLines (ls : List Str) : Str :=
  List.intercalate ['\n'] ls

/-- Embedding of `strings.Fields` (split on runs of white space). -/
def fieldsStr (s : Str) : List Str :=
  (s.splitOnP (isSpaceGo ·)).filter (· ≠ [])

/-- Embedding of `strings.Replace(s, old, new, 1)`: replace the first
occurrence only.  When `old` is empty Go inserts at the start; our callers
never pass an empty `old`, and we mirror Go for nonempty `old`. -/
def replaceFirst (s oldS newS : Str) : Str :=
  match indexOfStr s oldS with
  | none => s
  | some i => s.take i ++ newS ++ s.drop (i + oldS.length)

/-- Embedding of `strings.Count(line, sub)` for a one-character `sub`. -/
def countChar (s : Str) (c : Char) : Nat :=
  s.countP (· = c)

/-! ## Merge primitives: file kinds, strategies, conflicts (classifier.go,
detector.go, conflict types from the prompts package) -/

/-- Embedding of `merger.FileType`. -/
inductive FileType where
  | unknown
  | permissions
  | permissionProvider
  | dbContext
  | idbContext
  | entity
  | dto
  | service
  | manager
  | controller
  | validator
  | repository
  | constants
  | localizationJSON
  | autoMapperProfile
  | eventHandler
deriving DecidableEq

/-- Embedding of `merger.MergeStrategy`. -/
inductive MergeStrategy where
  | pattern
  | ast
  | json
  | none
deriving DecidableEq

/-- Embedding of `Classifier.GetMergeStrategy`. -/
def getMergeStrategy (ft : FileType) : MergeStrategy :=
  match ft with
  | .permissions | .permissionProvider | .dbContext | .idbContext => .pattern
  | .entity | .dto | .service | .manager | .controller | .validator
  | .repository => .ast
  | .localizationJSON => .json
  | _ => .none

/-- Embedding of `Classifier.IsMergeable`. -/
def isMergeable (ft : FileType) : Bool :=
  getMergeStrategy ft ≠ MergeStrategy.none

/-- Embedding of `Detector.CanMerge` (detector.go).  Note the enumerated
list: it does not include `repository`. -/
def canMerge (ft : FileType) : Bool :=
  match ft with
  | .permissions | .permissionProvider | .dbContext | .idbContext
  | .localizationJSON | .entity | .dto | .service | .manager
  | .controller | .validator => true
  | _ => false

/-- Embedding of `prompts.ConflictType`. -/
inductive ConflictType where
  | duplicateClass
  | duplicateMethod
  | duplicateProperty
  | differentValue
  | structural
deriving DecidableEq

/-- Embedding of `prompts.Conflict` (type, description, existing code, new
code, source line; line 0 encodes the absent line of the Go struct). -/
structure Conflict where
  ctype : ConflictType
  description : Str
  existingCode : Str
  newCode : Str
  line : Nat := 0
deriving DecidableEq

/-- Embedding of `prompts.ConflictResolution`. -/
inductive ConflictResolution where
  | keepExisting
  | useNew
  | keepBoth
  | skip
  | showContext
deriving DecidableEq

/-- Embedding of `prompts.MergeDecision`. -/
inductive MergeDecision where
  | overwrite
  | merge
  | skip
  | showDiff
deriving DecidableEq

/-! ## Merge engine routing (Engine.MergeFile)

`Engine.MergeFile` first checks existence, then force mode, then
`Detector.CanMerge`, and only then consults the decision provider
(`prompts.PromptMergeDecision`) unless a cached merge-all decision exists.
The outcome below records which return the function takes and whether the
decision provider was consulted; the `merged` constructor marks entry into
`performMerge` with the strategy selected by `Classifier.GetMergeStrategy`. -/

/-- Routing outcome of `Engine.MergeFile`.  `writeNew` = return
`(newContent, true)` before any prompt; `skipUnmergeable` = return
`("", false)` because `CanMerge` failed, before any prompt; the remaining
constructors record the decision taken and whether the decision provider
was consulted (`prompted`). -/
inductive EngineOutcome where
  | writeNew
  | skipUnmergeable
  | overwritten (prompted : Bool)
  | skipped (prompted : Bool)
  | diffSkipped (prompted : Bool)
  | merged (prompted : Bool) (strategy : MergeStrategy)
deriving DecidableEq

/-- Embedding of the control flow of `Engine.MergeFile` (merge_engine.go).
`mergeMode` is the cached `Engine.MergeMode` (`none` embeds Go's empty
string), `asked` is the answer the decision provider would give if
consulted. -/
def engineRoute (force mergeAll : Bool) (mergeMode : Option MergeDecision)
    (asked : MergeDecision) (fileExists : Bool) (ft : FileType) :
    EngineOutcome :=
  if !fileExists then .writeNew
  else if force then .writeNew
  else if !canMerge ft then .skipUnmergeable
  else
    let prompted := !(mergeAll && mergeMode.isSome)
    let decision := if mergeAll && mergeMode.isSome then mergeMode.getD asked
                    else asked
    match decision with
    | .overwrite => .overwritten prompted
    | .skip => .skipped prompted
    | .showDiff => .diffSkipped prompted
    | .merge => .merged prompted (getMergeStrategy ft)

/-! ## Writer (package writer, in loader.go): WriteFile ledger and
UpdateFileIdempotent -/

/-- Embedding of `writer.OperationType`. -/
inductive OperationType where
  | create
  | update
  | skip
deriving DecidableEq

/-- Embedding of `writer.FileOperation`. -/
structure FileOperation where
  opType : OperationType
  path : Str
  content : Str
  existing : Bool
deriving DecidableEq

/-- Embedding of `Writer.WriteFile`, restricted to its ledger effect and the
decision it takes.  `fileExists` embeds `fileExists(path)`;
`mergeOutcome = (mergedContent, shouldWrite)` embeds the result of
`mergeEngine.MergeFile` (consulted only on the merge path).  Returns the
final `Operations` ledger and the operation decided for this call
(`logOperation` prints but never touches the ledger). -/
def writeFileOps (force mergeMode fileExists : Bool)
    (mergeOutcome : Str × Bool) (path content : Str)
    (ops : List FileOperation) : List FileOperation × OperationType :=
  if mergeMode && fileExists && !force then
    let (mergedContent, shouldWrite) := mergeOutcome
    if !shouldWrite then
      (ops ++ [⟨.skip, path, content, true⟩], .skip)
    else
      -- continue with the merged content; file exists and mergeMode is on,
      -- so the operation type below is update
      (ops ++ [⟨.update, path, mergedContent, true⟩], .update)
  else
    let opType : OperationType :=
      if !fileExists then .create
      else if force || mergeMode then .update
      else .skip
    if fileExists && !(force || mergeMode) then
      -- logOperation only; early return with no ledger append
      (ops, .skip)
    else
      (ops ++ [⟨opType, path, content, fileExists⟩], opType)

/-- Embedding of the counting loop of `Writer.PrintSummary`: the
(created, updated, skipped) counts printed by the summary. -/
def printSummaryCounts (ops : List FileOperation) : Nat × Nat × Nat :=
  (ops.countP (fun op => op.opType = OperationType.create),
   ops.countP (fun op => op.opType = OperationType.update),
   ops.countP (fun op => op.opType = OperationType.skip))

/-- Result of `Writer.UpdateFileIdempotent`: error, sentinel skip, or
proceed to `Writer.WriteFile` with the mutated content. -/
inductive UFIResult where
  | err (msg : Str)
  | skipNoWrite
  | proceedWrite (newContent : Str)
deriving DecidableEq

/-- The existing-file path of `Writer.UpdateFileIdempotent` (the body of
the surviving three-parameter copy after the read succeeds): skip when the
sentinel already occurs, otherwise run the insertion and write. -/
def updateFileIdempotentGo (contentStr searchPattern : Str)
    (insertFunc : Str → Except Str Str) : UFIResult :=
  if strContains contentStr searchPattern then .skipNoWrite
  else
    match insertFunc contentStr with
    | .error e => .err e
    | .ok newContent => .proceedWrite newContent

/-- Embedding of the richer (authoritative) copy of
`Writer.UpdateFileIdempotent`.  `file` is the contents of the path
(`none` embeds `os.IsNotExist`).  The richer generator copy calls it with
a fourth `createInitialContent func() (string, error)` argument (six call
sites in mongodb.go, plus one passing `nil`); its body is not among the
surviving writer copies, so the missing-file branch follows the spec: with
a generator provided, initial content is synthesized and the call proceeds
as if the file existed; with `nil` (or on any other branch) it behaves as
the surviving three-parameter copy, erroring on a missing path. -/
def updateFileIdempotent (file : Option Str) (searchPattern : Str)
    (insertFunc : Str → Except Str Str)
    (createInitialContent : Option (Unit → Except Str Str)) : UFIResult :=
  match file with
  | none =>
    match createInitialContent with
    | none => .err ("file does not exist".data)
    | some gen =>
      match gen () with
      | .error e => .err e
      | .ok contentStr =>
        updateFileIdempotentGo contentStr searchPattern insertFunc
  | some contentStr =>
    updateFileIdempotentGo contentStr searchPattern insertFunc

/-! ## Conflict resolver (conflict_resolver.go) -/

/-- Embedding of `ConflictResolver.insertAfter`. -/
def insertAfter (content existingCode newCode : Str) : Str :=
  match indexOfStr content existingCode with
  | none => content
  | some index =>
    let endIndex := index + existingCode.length
    content.take endIndex ++ ('\n' :: '\n' :: newCode) ++ content.drop endIndex

/-- One line of `ConflictResolver.renameProperty`: if the line contains
`{ get; set; }`, append "2" to the first field that is not preceded by
`public` and does not start with `[`. -/
def renamePropertyLine (line : Str) : Str :=
  if strContains line ('\x7b' :: " get; set; \x7d".data) then
    renameGo line (fieldsStr line) 0
  else line
where
  /-- Walks the fields with index `j`, mirroring the Go loop: the first
  field at `j > 0` whose predecessor is not `public` and which does not
  start with `[` is renamed in place (first occurrence). -/
  renameGo (line : Str) : List Str → Nat → Str
    | [], _ => line
    | part :: rest, j =>
      if j > 0 &&
         !((fieldsStr line).getD (j - 1) [] = "public".data) &&
         !(hasPrefixStr part ['[']) then
        replaceFirst line part (part ++ ['2'])
      else renameGo line rest (j + 1)

/-- Embedding of `ConflictResolver.renameProperty` (line-by-line walk). -/
def renameProperty (code : Str) : Str :=
  joinLines ((splitLines code).map renamePropertyLine)

/-- One line of `ConflictResolver.renameMethod`: on a line containing `(`
and a visibility keyword, append "2" to the word before the first `(`. -/
def renameMethodLine (line : Str) : Str :=
  if strContains line ['('] &&
     (strContains line "public".data || strContains line "private".data ||
      strContains line "protected".data) then
    match indexOfStr line ['('] with
    | none => line
    | some parenIndex =>
      if parenIndex > 0 then
        let beforeParen := line.take parenIndex
        match (fieldsStr beforeParen).getLast? with
        | none => line
        | some methodName =>
          replaceFirst line (methodName ++ ['(']) (methodName ++ '2' :: ['('])
      else line
  else line

/-- Embedding of `ConflictResolver.renameMethod`. -/
def renameMethod (code : Str) : Str :=
  joinLines ((splitLines code).map renameMethodLine)

/-- One line of `ConflictResolver.renameClass`: after `class `, take the
first field, strip inheritance/brace suffixes, trim, and append "2". -/
def renameClassLine (line : Str) : Str :=
  match indexOfStr line "class ".data with
  | none => line
  | some classIndex =>
    let afterClass := line.drop (classIndex + 6)
    match fieldsStr afterClass with
    | [] => line
    | className₀ :: _ =>
      let className₁ :=
        match indexOfStr className₀ [':'] with
        | some colonIndex => if colonIndex > 0 then className₀.take colonIndex else className₀
        | none => className₀
      let className₂ :=
        match indexOfStr className₁ ['\x7b'] with
        | some braceIndex => if braceIndex > 0 then className₁.take braceIndex else className₁
        | none => className₁
      let className := trimSpace className₂
      replaceFirst line ("class ".data ++ className)
        ("class ".data ++ className ++ ['2'])

/-- Embedding of `ConflictResolver.renameClass`. -/
def renameClass (code : Str) : Str :=
  joinLines ((splitLines code).map renameClassLine)

/-- Embedding of `ConflictResolver.renameConflictingItem`. -/
def renameConflictingItem (code : Str) (conflictType : ConflictType) : Str :=
  match conflictType with
  | .duplicateProperty => renameProperty code
  | .duplicateMethod => renameMethod code
  | .duplicateClass => renameClass code
  | _ => code ++ "_New".data

/-- Resolution map passed to `ResolveConflicts` (Go `map[int]ConflictResolution`). -/
def ResolutionMap := List (Nat × ConflictResolution)

/-- Lookup in a `ResolutionMap` (Go map indexing with `ok` flag). -/
def lookupResolution (m : ResolutionMap) (i : Nat) : Option ConflictResolution :=
  match m with
  | [] => none
  | (j, r) :: rest => if j = i then some r else lookupResolution rest i

/-- The body of the loop of `ConflictResolver.ResolveConflicts`, iterating
with explicit index `i`. -/
def resolveConflictsGo (resolutions : ResolutionMap) (newContent : Str) :
    List Conflict → Nat → Str → Str
  | [], _, result => result
  | conflict :: rest, i, result =>
    let resolution := (lookupResolution resolutions i).getD .keepExisting
    let result' :=
      match resolution with
      | .keepExisting => result
      | .useNew => replaceFirst result conflict.existingCode conflict.newCode
      | .keepBoth =>
        insertAfter result conflict.existingCode
          (renameConflictingItem conflict.newCode conflict.ctype)
      | .skip => result
      | .showContext => result
    resolveConflictsGo resolutions newContent rest (i + 1) result'

/-- Embedding of `ConflictResolver.ResolveConflicts`. -/
def resolveConflicts (existing : Str) (conflicts : List Conflict)
    (resolutions : ResolutionMap) (newContent : Str) : Str :=
  if conflicts = [] then existing
  else resolveConflictsGo resolutions newContent conflicts 0 existing

/-! ## Structured-data merger (json_merger.go, strategy-aware copy)

The merger unmarshals both sides into `map[string]interface{}`; we embed
the parsed key-trees directly.  Go maps are embedded as association lists;
`json.Marshal`-equality of values (`valuesEqual`) coincides with structural
equality on this model because `MarshalIndent` serializes maps with sorted
keys and the model is canonical. -/

/-- A parsed JSON value (`interface{}` after `json.Unmarshal`): primitive
leaves, arrays, and string-keyed objects. -/
inductive JValue where
  | str (s : String)
  | num (n : Int)
  | bool (b : Bool)
  | null
  | arr (items : List JValue)
  | obj (fields : List (String × JValue))

/-- Key-trees: the toplevel `map[string]interface{}`. -/
abbrev JObj := List (String × JValue)

/-- Go map indexing `m[key]` with existence flag. -/
def jGet (m : JObj) (k : String) : Option JValue :=
  match m with
  | [] => none
  | (k', v) :: rest => if k' = k then some v else jGet rest k

/-- Go map assignment `m[key] = v`: replace the binding in place, or add it. -/
def jSet (m : JObj) (k : String) (v : JValue) : JObj :=
  match m with
  | [] => [(k, v)]
  | (k', v') :: rest => if k' = k then (k, v) :: rest else (k', v') :: jSet rest k v

mutual

/-- Embedding of `JSONMerger.valuesEqual`: `json.Marshal` both values and
compare the bytes.  `MarshalIndent` serializes maps with sorted keys, so on
this canonical model marshal-equality is structural equality, computed here
recursively. -/
def valuesEqual : JValue → JValue → Bool
  | .str a, .str b => a = b
  | .num a, .num b => a = b
  | .bool a, .bool b => a = b
  | .null, .null => true
  | .arr a, .arr b => valuesEqualList a b
  | .obj a, .obj b => valuesEqualFields a b
  | _, _ => false

/-- Elementwise `valuesEqual` on arrays. -/
def valuesEqualList : List JValue → List JValue → Bool
  | [], [] => true
  | a :: as', b :: bs => valuesEqual a b && valuesEqualList as' bs
  | _, _ => false

/-- Elementwise `valuesEqual` on object fields. -/
def valuesEqualFields : List (String × JValue) → List (String × JValue) → Bool
  | [], [] => true
  | (ka, va) :: as', (kb, vb) :: bs =>
    ka = kb && valuesEqual va vb && valuesEqualFields as' bs
  | _, _ => false

end

/-- Embedding of `JSONMerger.deepCopyValue`. -/
def deepCopyValue : JValue → JValue
  | .obj fields => .obj (deepCopyObj fields)
  | .arr items => .arr (deepCopyArr items)
  | v => v
where
  deepCopyObj : List (String × JValue) → List (String × JValue)
    | [] => []
    | (k, v) :: rest => (k, deepCopyValue v) :: deepCopyObj rest
  deepCopyArr : List JValue → List JValue
    | [] => []
    | v :: rest => deepCopyValue v :: deepCopyArr rest

/-- Embedding of `JSONMerger.MergeArrays`: keep existing items, append new
items not `valuesEqual` to any existing item. -/
def mergeArrays (existing new : List JValue) : List JValue :=
  existing ++ new.filter (fun newItem =>
    !(existing.any (fun existingItem => valuesEqual existingItem newItem)))

/-- A conflict reported by `JSONMerger.detectConflicts`; the source renders
`existingVal`/`newVal` into the `ExistingCode`/`NewCode` strings of a
`Conflict` with `%v`, and the key into the description — we carry the key
and the two values themselves. -/
structure JConflict where
  key : String
  existingVal : JValue
  newVal : JValue

/-- Embedding of `JSONMerger.detectConflicts` with the iteration order of
the `range new` loop made explicit: Go map iteration order is unspecified
(and randomized), so `order` enumerates the keys of `new` in the order the
loop happens to visit them. -/
def detectConflictsOrd (order : List String) (existing new : JObj) :
    List JConflict :=
  order.filterMap (fun key =>
    match jGet new key with
    | none => none
    | some newValue =>
      match jGet existing key with
      | none => none
      | some existingValue =>
        if valuesEqual existingValue newValue then none
        else some ⟨key, existingValue, newValue⟩)

/-- `JSONMerger.detectConflicts` at the canonical enumeration (the keys of
`new` in model order). -/
def detectConflicts (existing new : JObj) : List JConflict :=
  detectConflictsOrd (new.map Prod.fst) existing new

mutual

/-- Merging of one existing binding with one new value, as in the
`key exists` branch of `JSONMerger.mergeObjects`.  The recursive call
`mergeObjects(existingMap, newMap)` of the source is spelled through
`mergeObjectsGo` applied to the deep copy of `existingMap`, which is what
`mergeObjects` below unfolds to. -/
def mergeValue (strategy : String) (existingValue newValue : JValue) : JValue :=
  if strategy = "overwrite" then deepCopyValue newValue
  else if strategy = "skip" then existingValue
  else -- "append" and any other tag fall through to the default branch
    match existingValue, newValue with
    | .obj existingMap, .obj newMap =>
      .obj (mergeObjectsGo strategy (deepCopyValue.deepCopyObj existingMap) newMap)
    | .arr existingArray, .arr newArray => .arr (mergeArrays existingArray newArray)
    | _, _ => existingValue
termination_by (sizeOf newValue, 0)

/-- The loop of `JSONMerger.mergeObjects` over the entries of `new`,
starting from the deep copy of `existing` accumulated in `result`. -/
def mergeObjectsGo (strategy : String) (result : JObj) (new : JObj) : JObj :=
  match new with
  | [] => result
  | (key, newValue) :: rest =>
    let result' :=
      match jGet result key with
      | none => jSet result key (deepCopyValue newValue)
      | some existingValue => jSet result key (mergeValue strategy existingValue newValue)
    mergeObjectsGo strategy result' rest
termination_by (sizeOf new, 1)

end

/-- Embedding of `JSONMerger.mergeObjects`. -/
def mergeObjects (strategy : String) (existing new : JObj) : JObj :=
  mergeObjectsGo strategy (deepCopyValue.deepCopyObj existing) new

/-- Embedding of `NewJSONMergerWithStrategy`: the empty strategy string
defaults to "append". -/
def newJSONMergerWithStrategy (strategy : String) : String :=
  if strategy = "" then "append" else strategy

/-- Embedding of `JSONMerger.Merge` after both sides parsed: conflicts are
computed only under the "append" strategy; the merge itself always runs. -/
def jsonMerge (strategy : String) (existing new : JObj) :
    JObj × List JConflict :=
  (mergeObjects strategy existing new,
   if strategy = "append" then detectConflicts existing new else [])

/-- Keys of an object are pairwise distinct (computable). -/
def nodupKeys : List String → Bool
  | [] => true
  | k :: rest => !(rest.contains k) && nodupKeys rest

mutual

/-- Well-formedness of a parsed value: every object has distinct keys (true
of any value produced by `json.Unmarshal`, since Go maps have unique keys). -/
def jwfV : JValue → Bool
  | .obj fields => nodupKeys (fields.map Prod.fst) && jwfFields fields
  | .arr items => jwfList items
  | _ => true

/-- Well-formedness of object fields. -/
def jwfFields : List (String × JValue) → Bool
  | [] => true
  | (_, v) :: rest => jwfV v && jwfFields rest

/-- Well-formedness of array items. -/
def jwfList : List JValue → Bool
  | [] => true
  | v :: rest => jwfV v && jwfList rest

end

/-- Well-formedness of a toplevel key-tree. -/
def jwfObj (m : JObj) : Bool :=
  nodupKeys (m.map Prod.fst) && jwfFields m

/-- Flatness of a key-tree in the sense of claim C4: every value is a
primitive leaf (no nested object or array). -/
def jFlat (m : JObj) : Bool :=
  m.all (fun p =>
    match p.2 with
    | .obj _ => false
    | .arr _ => false
    | _ => true)

/-! ## Schema model (schema.go) and validator (validator.go, richer copy)

Field names follow the Go structs; `type`-named Go fields are spelled with
a prefix because `type` is a Lean keyword.  Go string comparison `>` is
byte-lexicographic; `lexLtChars` embeds it for the ASCII names involved. -/

/-- Byte-lexicographic `<` of Go on strings (ASCII fragment). -/
def lexLtChars : List Char → List Char → Bool
  | [], [] => false
  | [], _ :: _ => true
  | _ :: _, [] => false
  | a :: as', b :: bs => if a = b then lexLtChars as' bs else decide (a < b)

/-- Go `a > b` on strings. -/
def goStrGreater (a b : String) : Bool := lexLtChars b.data a.data

/-- Embedding of `schema.MultiTenancy`. -/
structure MultiTenancy where
  enabled : Bool := false
  strategy : String := ""
  enableCrossTenant : Bool := false
  tenantIdProperty : String := ""
  enableDataIsolation : Bool := false
deriving DecidableEq

/-- Embedding of `schema.Solution`. -/
structure Solution where
  name : String := ""
  moduleName : String := ""
  namespaceRoot : String := ""
  moduleSuffix : String := ""
  folderPrefix : String := ""
  abpVersion : String := ""
  targetFramework : String := ""
  primaryKeyType : String := ""
  dbProvider : String := ""
  generateControllers : Bool := false
  multiTenancy : Option MultiTenancy := none
  generationMode : String := ""
deriving DecidableEq

/-- Embedding of `schema.ValidationRule` (`Type` is spelled `vtype`). -/
structure ValidationRule where
  vtype : String := ""
  value : String := ""
  errorMessage : String := ""
deriving DecidableEq

/-- Embedding of `schema.Property` (`Type` is spelled `ptype`). -/
structure Property where
  name : String := ""
  ptype : String := ""
  isRequired : Bool := false
  maxLength : Nat := 0
  minLength : Nat := 0
  nullable : Bool := false
  defaultValue : String := ""
  isForeignKey : Bool := false
  targetEntity : String := ""
  isEnum : Bool := false
  enumName : String := ""
  isValueObject : Bool := false
  validationRules : List ValidationRule := []
deriving DecidableEq

/-- Embedding of `schema.OneToOneRelation`. -/
structure OneToOneRelation where
  targetEntity : String := ""
  foreignKeyName : String := ""
  navigationProperty : String := ""
  isRequired : Bool := false
  isOwned : Bool := false
  cascadeDelete : Bool := false
deriving DecidableEq

/-- Embedding of `schema.ManyToOneRelation`. -/
structure ManyToOneRelation where
  targetEntity : String := ""
  foreignKeyName : String := ""
  navigationProperty : String := ""
  isRequired : Bool := false
  cascadeDelete : Bool := false
deriving DecidableEq

/-- Embedding of `schema.OneToManyRelation`. -/
structure OneToManyRelation where
  targetEntity : String := ""
  foreignKeyName : String := ""
  navigationProperty : String := ""
  isCollection : Bool := false
  cascadeDelete : Bool := false
  isSelfReference : Bool := false
deriving DecidableEq

/-- Embedding of `schema.ManyToManyRelation`. -/
structure ManyToManyRelation where
  targetEntity : String := ""
  joinEntity : String := ""
  navigationProperty : String := ""
  inverseProperty : String := ""
deriving DecidableEq

/-- Embedding of `schema.Relations`. -/
structure Relations where
  oneToOne : List OneToOneRelation := []
  oneToMany : List OneToManyRelation := []
  manyToOne : List ManyToOneRelation := []
  manyToMany : List ManyToManyRelation := []
deriving DecidableEq

/-- Embedding of `schema.MethodParameter`. -/
structure MethodParameter where
  name : String := ""
  ptype : String := ""
deriving DecidableEq

/-- Embedding of `schema.RepositoryMethod`. -/
structure RepositoryMethod where
  name : String := ""
  returnType : String := ""
  parameters : List MethodParameter := []
  isAsync : Bool := false
  queryHint : String := ""
  description : String := ""
deriving DecidableEq

/-- Embedding of `schema.CustomRepository`. -/
structure CustomRepository where
  methods : List RepositoryMethod := []
deriving DecidableEq

/-- Embedding of `schema.EventProperty`. -/
structure EventProperty where
  name : String := ""
  ptype : String := ""
deriving DecidableEq

/-- Embedding of `schema.EventHandler`. -/
structure EventHandlerDef where
  name : String := ""
  handlerType : String := ""
  action : String := ""
deriving DecidableEq

/-- Embedding of `schema.DomainEvent` (`Type` is spelled `etype`). -/
structure DomainEvent where
  name : String := ""
  etype : String := ""
  payload : List EventProperty := []
  handlers : List EventHandlerDef := []
  description : String := ""
deriving DecidableEq

/-- Embedding of `schema.EnumValue`. -/
structure EnumValue where
  name : String := ""
  value : String := ""
  localizationKey : String := ""
  description : String := ""
deriving DecidableEq

/-- Embedding of `schema.EnumDefinition`. -/
structure EnumDefinition where
  name : String := ""
  underlyingType : String := ""
  values : List EnumValue := []
  useLocalization : Bool := false
  generateLookup : Bool := false
  description : String := ""
deriving DecidableEq

/-- Embedding of `schema.ValueObjectConfig`. -/
structure ValueObjectConfig where
  isImmutable : Bool := false
  factoryMethod : String := ""
  validationRules : List String := []
  equalityMembers : List String := []
  generateComparison : Bool := false
deriving DecidableEq

/-- Embedding of `schema.Entity`. -/
structure Entity where
  name : String := ""
  tableName : String := ""
  entityType : String := ""
  primaryKeyType : String := ""
  properties : List Property := []
  relations : Option Relations := none
  customRepository : Option CustomRepository := none
  domainEvents : List DomainEvent := []
  enums : List EnumDefinition := []
  valueObjectConfig : Option ValueObjectConfig := none
  generateIntegrationTests : Bool := false
deriving DecidableEq

/-- Embedding of `schema.LocalizationMerge`. -/
structure LocalizationMerge where
  enabled : Bool := false
  targetPath : String := ""
  conflictStrategy : String := ""
deriving DecidableEq

/-- Embedding of `schema.Options`. -/
structure SchemaOptions where
  useAuditedAggregateRoot : Bool := false
  useSoftDelete : Bool := false
  useConcurrencyStamp : Bool := false
  useExtraProperties : Bool := false
  useLocalization : Bool := false
  localizationCultures : List String := []
  validationType : String := ""
  mappingLibrary : String := ""
  generateEventHandlers : Bool := false
  generateIntegrationTests : Bool := false
  localizationMerge : Option LocalizationMerge := none
deriving DecidableEq

/-- Embedding of `schema.Schema`. -/
structure Schema where
  solution : Solution := {}
  entities : List Entity := []
  options : SchemaOptions := {}
deriving DecidableEq

/-- Embedding of `schema.Pluralize`. -/
def pluralize (word : String) : String :=
  let w := word.data
  if hasSuffixStr w ['y'] && decide (w.length > 1) then ⟨w.dropLast ++ "ies".data⟩
  else if hasSuffixStr w ['s'] || hasSuffixStr w ['x'] ||
          hasSuffixStr w "ch".data || hasSuffixStr w "sh".data then ⟨w ++ "es".data⟩
  else ⟨w ++ "s".data⟩

/-- Embedding of `Schema.validateMultiTenancy`: the strategy check and the
tenant-id default.  `mt` is reached through a pointer in the source, so the
default persists in the schema. -/
def validateMultiTenancy (mt : MultiTenancy) : Except String MultiTenancy := do
  let validStrategies := ["none", "host", "tenant-per-db", "tenant-per-schema"]
  if mt.strategy ≠ "" && !(validStrategies.contains mt.strategy) then
    throw s!"strategy must be valid, got {mt.strategy}"
  let mt := if mt.tenantIdProperty = "" then { mt with tenantIdProperty := "TenantId" } else mt
  return mt

/-- Embedding of `Schema.validateSolution` (richer copy): defaulting is done
through the `*Schema` receiver, so it persists; the updated schema is
returned. -/
def validateSolution (s : Schema) : Except String Schema := do
  if s.solution.name = "" then throw "solution.name is required"
  if s.solution.moduleName = "" then throw "solution.moduleName is required"
  let sol := s.solution
  let sol :=
    if sol.namespaceRoot = "" then { sol with namespaceRoot := sol.name }
    else
      -- normalize: strip a trailing module name
      let expectedWithModule := sol.name ++ "." ++ sol.moduleName
      if sol.namespaceRoot = expectedWithModule then { sol with namespaceRoot := sol.name }
      else sol
  let sol := if sol.abpVersion = "" then { sol with abpVersion := "9.0" } else sol
  let sol := if sol.targetFramework = "" then { sol with targetFramework := "auto" } else sol
  let validTargets := ["aspnetcore9", "aspnetcore10", "abp8-microservice",
    "abp8-monolith", "abp9-microservice", "abp9-monolith",
    "abp10-microservice", "abp10-monolith", "auto"]
  if !(validTargets.contains sol.targetFramework) then
    throw s!"solution.targetFramework must be valid, got {sol.targetFramework}"
  let sol := if sol.primaryKeyType = "" then { sol with primaryKeyType := "Guid" } else sol
  if !(["Guid", "long", "configurable"].contains sol.primaryKeyType) then
    throw s!"solution.primaryKeyType must be valid, got {sol.primaryKeyType}"
  let sol := if sol.dbProvider = "" then { sol with dbProvider := "efcore" } else sol
  if !(["efcore", "mongodb", "both"].contains sol.dbProvider) then
    throw s!"solution.dbProvider must be valid, got {sol.dbProvider}"
  let sol ←
    match sol.multiTenancy with
    | some mt => do
      let mt ← match validateMultiTenancy mt with
        | .error e => throw ("solution.multiTenancy: " ++ e)
        | .ok mt => pure mt
      pure { sol with multiTenancy := some mt }
    | none => pure sol
  let opts := s.options
  let opts := if opts.validationType = "" then { opts with validationType := "fluentvalidation" } else opts
  if !(["fluentvalidation", "native"].contains opts.validationType) then
    throw s!"options.validationType must be valid, got {opts.validationType}"
  match opts.localizationMerge with
  | some lm =>
    if lm.conflictStrategy ≠ "" &&
       !(["overwrite", "append", "skip"].contains lm.conflictStrategy) then
      throw s!"options.localizationMerge.conflictStrategy must be valid, got {lm.conflictStrategy}"
  | none => pure ()
  return { s with solution := sol, options := opts }

/-- Embedding of `Schema.validateProperty`. -/
def validateProperty (prop : Property) (existingNames : List String) :
    Except String Unit := do
  if prop.name = "" then throw "property name is required"
  if existingNames.contains prop.name then throw s!"duplicate property name {prop.name}"
  if prop.ptype = "" then throw "property type is required"
  -- custom types are accepted; types are validated at compile time
  if prop.isForeignKey && prop.targetEntity = "" then
    throw "foreign key property must specify targetEntity"
  return ()

/-- The property loop of `Schema.validateEntity`, accumulating
`propertyNames`. -/
def validatePropsGo : List Property → List String → Nat → Except String Unit
  | [], _, _ => .ok ()
  | prop :: rest, names, i =>
    match validateProperty prop names with
    | .error e => .error (s!"property[{i}] " ++ prop.name ++ ": " ++ e)
    | .ok () => validatePropsGo rest (names ++ [prop.name]) (i + 1)

/-- Embedding of `Schema.validateRepositoryMethod`. -/
def validateRepositoryMethod (method : RepositoryMethod) : Except String Unit := do
  if method.name = "" then throw "method name is required"
  if method.returnType = "" then throw "return type is required"
  return ()

/-- Embedding of `Schema.validateDomainEvent`.  The `Type` default is
written to the loop copy in the source, so it only affects the validity
check inside this call. -/
def validateDomainEvent (event : DomainEvent) : Except String Unit := do
  if event.name = "" then throw "event name is required"
  let event := if event.etype = "" then { event with etype := "domain" } else event
  if !(["domain", "distributed"].contains event.etype) then
    throw s!"event type must be domain or distributed, got {event.etype}"
  return ()

/-- The value loop of `Schema.validateEnum`. -/
def validateEnumValuesGo : List EnumValue → List String → Nat → Except String Unit
  | [], _, _ => .ok ()
  | val :: rest, names, i =>
    if val.name = "" then .error s!"enum value[{i}] name is required"
    else if names.contains val.name then .error s!"duplicate enum value name {val.name}"
    else validateEnumValuesGo rest (names ++ [val.name]) (i + 1)

/-- Embedding of `Schema.validateEnum` (the underlying-type default is
written to the loop copy and lost). -/
def validateEnum (enumDef : EnumDefinition) (existingNames : List String) :
    Except String Unit := do
  if enumDef.name = "" then throw "enum name is required"
  if existingNames.contains enumDef.name then throw s!"duplicate enum name {enumDef.name}"
  let _ := if enumDef.underlyingType = "" then { enumDef with underlyingType := "int" } else enumDef
  if enumDef.values = [] then throw "enum must have at least one value"
  validateEnumValuesGo enumDef.values [] 0

/-- Embedding of `Schema.validateValueObjectConfig`. -/
def validateValueObjectConfig (config : ValueObjectConfig)
    (properties : List Property) : Except String Unit := do
  let propNames := properties.map (·.name)
  for member in config.equalityMembers do
    if !(propNames.contains member) then
      throw s!"equality member {member} does not exist in properties"
  return ()

/-- Indexed loop over a validator returning contextualized errors. -/
def forIdx (msg : Nat → α → String) (f : α → Except String Unit) :
    List α → Nat → Except String Unit
  | [], _ => .ok ()
  | x :: rest, i =>
    match f x with
    | .error e => .error (msg i x ++ e)
    | .ok () => forIdx msg f rest (i + 1)

/-- The enum loop of `Schema.validateEntity`, accumulating `enumNames`. -/
def validateEnumsGo : List EnumDefinition → List String → Nat → Except String Unit
  | [], _, _ => .ok ()
  | enumDef :: rest, names, i =>
    match validateEnum enumDef names with
    | .error e => .error (s!"enums[{i}] " ++ enumDef.name ++ ": " ++ e)
    | .ok () => validateEnumsGo rest (names ++ [enumDef.name]) (i + 1)

/-- Embedding of `Schema.validateEntity`.  The receiver is `&entity` where
`entity` is the copy bound by `range` in `Validate`, so the table-name and
entity-type defaults written here affect only the checks inside this call
and are lost afterwards; accordingly the function returns no entity. -/
def validateEntity (entity : Entity) (existingNames : List String) :
    Except String Unit := do
  if entity.name = "" then throw "entity name is required"
  if existingNames.contains entity.name then throw s!"duplicate entity name {entity.name}"
  let entity := if entity.tableName = "" then { entity with tableName := pluralize entity.name } else entity
  let entity := if entity.entityType = "" then { entity with entityType := "FullAuditedAggregateRoot" } else entity
  let validTypes := ["Entity", "AggregateRoot", "FullAuditedAggregateRoot",
    "AuditedAggregateRoot", "ValueObject"]
  if !(validTypes.contains entity.entityType) then
    throw s!"invalid entityType {entity.entityType}"
  if entity.properties = [] && entity.entityType ≠ "ValueObject" then
    throw "entity must have at least one property"
  validatePropsGo entity.properties [] 0
  match entity.customRepository with
  | some repo =>
    forIdx (fun i m => s!"customRepository.methods[{i}] " ++ m.name ++ ": ")
      validateRepositoryMethod repo.methods 0
  | none => pure ()
  forIdx (fun i ev => s!"domainEvents[{i}] " ++ ev.name ++ ": ")
    validateDomainEvent entity.domainEvents 0
  validateEnumsGo entity.enums [] 0
  match entity.valueObjectConfig with
  | some config =>
    if entity.entityType = "ValueObject" then
      match validateValueObjectConfig config entity.properties with
      | .error e => throw ("valueObjectConfig: " ++ e)
      | .ok () => pure ()
    else pure ()
  | none => pure ()
  return ()

/-- Embedding of `Schema.validateRelations`.  Each `for i, rel := range`
loop binds `rel` to a copy of the slice element; the assignments
`rel.NavigationProperty = ...` and `rel.JoinEntity = ...` write to that
copy, which is discarded when the iteration ends.  The locals below record
those dead writes; no relation is returned or updated. -/
def validateRelations (entity : Entity) (_entityNames : List String) :
    Except String Unit := do
  match entity.relations with
  | none => return ()
  | some rels => do
    forIdx (fun i _ => s!"oneToOne[{i}]: ")
      (fun (rel : OneToOneRelation) =>
        if rel.targetEntity = "" then .error "targetEntity is required"
        else
          -- dead write to the range copy
          let _ := if rel.navigationProperty = "" then
                     { rel with navigationProperty := rel.targetEntity } else rel
          .ok ())
      rels.oneToOne 0
    forIdx (fun i _ => s!"oneToMany[{i}]: ")
      (fun (rel : OneToManyRelation) =>
        if rel.targetEntity = "" then .error "targetEntity is required"
        else .ok ())  -- forward references are allowed
      rels.oneToMany 0
    forIdx (fun i _ => s!"manyToOne[{i}]: ")
      (fun (rel : ManyToOneRelation) =>
        if rel.targetEntity = "" then .error "targetEntity is required"
        else
          -- dead write to the range copy
          let _ := if rel.navigationProperty = "" then
                     { rel with navigationProperty := rel.targetEntity } else rel
          .ok ())
      rels.manyToOne 0
    forIdx (fun i _ => s!"manyToMany[{i}]: ")
      (fun (rel : ManyToManyRelation) =>
        if rel.targetEntity = "" then .error "targetEntity is required"
        else
          -- auto-generate join entity name, sorted for consistent naming;
          -- the write goes to the range copy and is lost
          let _ :=
            if rel.joinEntity = "" then
              let e0 := entity.name
              let e1 := rel.targetEntity
              let (e0, e1) := if goStrGreater e0 e1 then (e1, e0) else (e0, e1)
              { rel with joinEntity := e0 ++ e1 }
            else rel
          .ok ())
      rels.manyToMany 0
    return ()

/-- The join-entity name the validator computes (and then discards): the
two endpoint names sorted byte-lexicographically and concatenated. -/
def autoJoinEntityName (entityName targetEntity : String) : String :=
  if goStrGreater entityName targetEntity then targetEntity ++ entityName
  else entityName ++ targetEntity

/-- The first loop of `Schema.Validate`, accumulating `entityNames`. -/
def validateEntitiesGo : List Entity → List String → Nat → Except String Unit
  | [], _, _ => .ok ()
  | entity :: rest, names, i =>
    match validateEntity entity names with
    | .error e => .error (s!"entity[{i}] " ++ entity.name ++ ": " ++ e)
    | .ok () => validateEntitiesGo rest (names ++ [entity.name]) (i + 1)

/-- The second loop of `Schema.Validate`: relations are validated against
the complete name set; `entity` is again a `range` copy. -/
def validateRelationsGo (entityNames : List String) :
    List Entity → Except String Unit
  | [] => .ok ()
  | entity :: rest =>
    match validateRelations entity entityNames with
    | .error e => .error ("entity " ++ entity.name ++ " relations: " ++ e)
    | .ok () => validateRelationsGo entityNames rest

/-- Embedding of `Schema.Validate`.  Solution and option defaults persist
(pointer receiver); entity-level defaults and the generated join-entity
names are written to `range` copies and are lost, so the entity list of the
returned schema is the input entity list unchanged. -/
def validate (s : Schema) : Except String Schema := do
  let s ← validateSolution s
  if s.entities = [] then throw "schema must contain at least one entity"
  validateEntitiesGo s.entities [] 0
  validateRelationsGo (s.entities.map (·.name)) s.entities
  return s

/-! ## Regular-expression chains (pattern_merger.go)

The pattern merger uses a fixed set of Go regular expressions.  Each one is
a chain of literals and greedy character-class repetitions
(`\s+`, `\s*`, `\w+`, `[^x]+`, `[^x]*`); for such chains maximal munch
coincides with Go's leftmost-first matching, because no class of a
repetition contains the first character that has to follow it (shorter
repetitions always fail immediately).  `runToks` is the anchored matcher,
`findTokMatch` the leftmost search, `findAllToks` the non-overlapping
`FindAllString`. -/

/-- One element of a regular-expression chain. -/
inductive Tok where
  | lit (l : Str)
  | many1 (p : Char → Bool)
  | many0 (p : Char → Bool)

/-- Length of the maximal prefix run satisfying `p` (greedy munch). -/
def munch (p : Char → Bool) : Str → Nat
  | [] => 0
  | c :: rest => if p c then munch p rest + 1 else 0

/-- Anchored match of a chain at the start of `s`, returning the number of
characters consumed. -/
def runToks : List Tok → Str → Option Nat
  | [], _ => some 0
  | .lit l :: rest, s =>
    if hasPrefixStr s l then (runToks rest (s.drop l.length)).map (· + l.length)
    else none
  | .many1 p :: rest, s =>
    let k := munch p s
    if k = 0 then none else (runToks rest (s.drop k)).map (· + k)
  | .many0 p :: rest, s =>
    let k := munch p s
    (runToks rest (s.drop k)).map (· + k)

/-- Leftmost match of a chain in `s`: start position and length. -/
def findTokMatch (ts : List Tok) : Str → Option (Nat × Nat)
  | [] => (runToks ts []).map (⟨0, ·⟩)
  | s@(_ :: rest) =>
    match runToks ts s with
    | some k => some (0, k)
    | none => (findTokMatch ts rest).map (fun pk => (pk.1 + 1, pk.2))

/-- Whether a chain matches anywhere in `s` (`MatchString`). -/
def scanToks (ts : List Tok) (s : Str) : Bool :=
  (findTokMatch ts s).isSome

/-- First matching slice (`FindString`; empty when there is no match). -/
def findTokString (ts : List Tok) (s : Str) : Str :=
  match findTokMatch ts s with
  | none => []
  | some (p, k) => (s.drop p).take k

/-- The scan loop of `FindAllString`, driven by a character budget: every
step consumes at least one character, so a budget of `s.length + 1` always
runs the scan to completion. -/
def findAllToksGo (ts : List Tok) : Nat → Str → List Str
  | 0, _ => []
  | _ + 1, [] => []
  | fuel + 1, c :: rest =>
    match findTokMatch ts (c :: rest) with
    | none => []
    | some (p, k) =>
      (((c :: rest).drop p).take k) ::
        findAllToksGo ts fuel ((c :: rest).drop (p + k.max 1))

/-- All non-overlapping matched slices, leftmost first (`FindAllString`). -/
def findAllToks (ts : List Tok) (s : Str) : List Str :=
  findAllToksGo ts (s.length + 1) s

/-- Chain of `public\s+static\s+class\s+\w+\s*\{[^}]*\}` (class extraction
of `extractPermissionClasses`). -/
def permClassToks : List Tok :=
  [.lit "public".data, .many1 isSpaceRe, .lit "static".data, .many1 isSpaceRe,
   .lit "class".data, .many1 isSpaceRe, .many1 isWordChar, .many0 isSpaceRe,
   .lit ['\x7b'], .many0 (fun c => c ≠ '\x7d'), .lit ['\x7d']]

/-- Chain of `public\s+static\s+class\s+NAME\s*\{` (`containsClass`; the
name is quoted into the pattern with `QuoteMeta`, hence a literal). -/
def classHeadToks (className : Str) : List Tok :=
  [.lit "public".data, .many1 isSpaceRe, .lit "static".data, .many1 isSpaceRe,
   .lit "class".data, .many1 isSpaceRe, .lit className, .many0 isSpaceRe,
   .lit ['\x7b']]

/-- Chain of `public\s+static\s+class\s+NAME\s*\{[^}]*\}`
(`extractExistingClass`). -/
def classFullToks (className : Str) : List Tok :=
  [.lit "public".data, .many1 isSpaceRe, .lit "static".data, .many1 isSpaceRe,
   .lit "class".data, .many1 isSpaceRe, .lit className, .many0 isSpaceRe,
   .lit ['\x7b'], .many0 (fun c => c ≠ '\x7d'), .lit ['\x7d']]

/-- Chain of `public\s+static\s+class\s+NAME` (`findClassLine`, applied per
line). -/
def classLineToks (className : Str) : List Tok :=
  [.lit "public".data, .many1 isSpaceRe, .lit "static".data, .many1 isSpaceRe,
   .lit "class".data, .many1 isSpaceRe, .lit className]

/-- Embedding of `PatternMerger.extractPermissionClasses`. -/
def extractPermissionClasses (content : Str) : List Str :=
  findAllToks permClassToks content

/-- Embedding of `PatternMerger.extractClassName`: the first match of
`public\s+static\s+class\s+(\w+)` yields the word run as the capture; the
match ends at the end of that run, so the capture is its longest word-char
suffix.  Returns the empty string when there is no match. -/
def extractClassName (classCode : Str) : Str :=
  let ts : List Tok :=
    [.lit "public".data, .many1 isSpaceRe, .lit "static".data, .many1 isSpaceRe,
     .lit "class".data, .many1 isSpaceRe, .many1 isWordChar]
  match findTokMatch ts classCode with
  | none => []
  | some (p, k) =>
    let m := (classCode.drop p).take k
    (m.reverse.takeWhile isWordChar).reverse

/-- Embedding of `PatternMerger.containsClass`. -/
def containsClass (content className : Str) : Bool :=
  scanToks (classHeadToks className) content

/-- Embedding of `PatternMerger.extractExistingClass`. -/
def extractExistingClass (content className : Str) : Str :=
  findTokString (classFullToks className) content

/-- Embedding of `PatternMerger.findClassLine` (1-based line of the first
matching line, 0 when absent). -/
def findClassLine (content className : Str) : Nat :=
  match (splitLines content).findIdx? (fun line => scanToks (classLineToks className) line) with
  | some i => i + 1
  | none => 0

/-- Embedding of `PatternMerger.insertBeforeClosingBrace`. -/
def insertBeforeClosingBrace (content toInsert : Str) : Str :=
  let lines := splitLines content
  let insertIndex : Option Nat :=
    match lines.reverse.findIdx? (fun line => trimSpace line = ['\x7d']) with
    | some j => some (lines.length - 1 - j)
    | none => none
  match insertIndex with
  | none => content ++ '\n' :: toInsert
  | some i =>
    joinLines (lines.take i) ++ '\n' :: '\n' :: toInsert ++ '\n' :: joinLines (lines.drop i)

/-- The class loop of `PatternMerger.mergePermissions`, accumulating
conflicts and additions in order. -/
def mergePermissionsGo (existing : Str) :
    List Str → List Conflict → List Str → List Conflict × List Str
  | [], conflicts, toAdd => (conflicts, toAdd)
  | newClass :: rest, conflicts, toAdd =>
    let className := extractClassName newClass
    if className = [] then mergePermissionsGo existing rest conflicts toAdd
    else if containsClass existing className then
      mergePermissionsGo existing rest
        (conflicts ++ [{ ctype := .duplicateClass,
                         description := "Class '".data ++ className ++ "' already exists".data,
                         existingCode := extractExistingClass existing className,
                         newCode := newClass,
                         line := findClassLine existing className }])
        toAdd
    else mergePermissionsGo existing rest conflicts (toAdd ++ [newClass])

/-- Embedding of `PatternMerger.mergePermissions`. -/
def mergePermissions (existing newContent : Str) : Str × List Conflict :=
  let (conflicts, toAdd) :=
    mergePermissionsGo existing (extractPermissionClasses newContent) [] []
  if conflicts = [] && toAdd ≠ [] then
    (insertBeforeClosingBrace existing (List.intercalate ('\n' :: ['\n']) toAdd), [])
  else (existing, conflicts)

/-- Chain of `context\.AddPermission\([^)]+\);` (provider statement
extraction). -/
def defineStmtToks : List Tok :=
  [.lit "context.AddPermission(".data, .many1 (fun c => c ≠ ')'), .lit ");".data]

/-- Chain of `public\s+override\s+void\s+Define\([^)]+\)\s*\{` — group 1 of
the `insertIntoDefineMethod` pattern. -/
def defineMethodToks : List Tok :=
  [.lit "public".data, .many1 isSpaceRe, .lit "override".data, .many1 isSpaceRe,
   .lit "void".data, .many1 isSpaceRe, .lit "Define(".data,
   .many1 (fun c => c ≠ ')'), .lit ")".data, .many0 isSpaceRe, .lit ['\x7b']]

/-- Anchored match of the full `insertIntoDefineMethod` pattern
`(?s)(public\s+override\s+void\s+Define\([^)]+\)\s*\{)(.*?)(\s*\})` at the
start of `s`: the lazy `(.*?)` stops at the first position from which
`\s*\}` matches, i.e. just before the whitespace run preceding the first
`}`.  Returns (total length, group 1, group 2, group 3). -/
def matchDefineAt (s : Str) : Option (Nat × Str × Str × Str) :=
  match runToks defineMethodToks s with
  | none => none
  | some k1 =>
    let rest := s.drop k1
    match indexOfStr rest ['\x7d'] with
    | none => none
    | some q =>
      let wsLen := ((rest.take q).reverse.takeWhile isSpaceRe).length
      let g2 := rest.take (q - wsLen)
      let g3 := (rest.drop (q - wsLen)).take (wsLen + 1)
      some (k1 + q + 1, s.take k1, g2, g3)

/-- Embedding of `ReplaceAllString` for the define pattern with template
`${1}${2}\n<toInsert>${3}`: every match is rewritten, scanning resumes
after each match.  `fuel` bounds the recursion; every match has positive
length, so `length s + 1` steps always suffice. -/
def insertIntoDefineMethodGo (toInsert : Str) : Nat → Str → Str
  | 0, s => s
  | _ + 1, [] => []
  | fuel + 1, c :: rest =>
    match matchDefineAt (c :: rest) with
    | some (len, g1, g2, g3) =>
      g1 ++ g2 ++ '\n' :: toInsert ++ g3 ++
        insertIntoDefineMethodGo toInsert fuel ((c :: rest).drop len)
    | none => c :: insertIntoDefineMethodGo toInsert fuel rest

/-- Embedding of `PatternMerger.insertIntoDefineMethod`. -/
def insertIntoDefineMethod (content toInsert : Str) : Str :=
  insertIntoDefineMethodGo toInsert (content.length + 1) content

/-- Whether the define-method pattern matches anywhere within the budget
(the condition under which `ReplaceAllString` rewrites anything). -/
def hasDefineMatchGo : Nat → Str → Bool
  | 0, _ => false
  | _ + 1, [] => false
  | fuel + 1, c :: rest =>
    match matchDefineAt (c :: rest) with
    | some _ => true
    | none => hasDefineMatchGo fuel rest

/-- Whether the `insertIntoDefineMethod` pattern matches anywhere in the
content. -/
def hasDefineMatch (s : Str) : Bool :=
  hasDefineMatchGo (s.length + 1) s

/-- The statement loop of `PatternMerger.mergePermissionProvider`. -/
def mergeProviderGo (existing : Str) :
    List Str → List Conflict → List Str → List Conflict × List Str
  | [], conflicts, toAdd => (conflicts, toAdd)
  | defineStmt :: rest, conflicts, toAdd =>
    if strContains existing defineStmt then
      mergeProviderGo existing rest
        (conflicts ++ [{ ctype := .duplicateMethod,
                         description := "Permission definition already exists".data,
                         existingCode := defineStmt,
                         newCode := defineStmt }])
        toAdd
    else
      mergeProviderGo existing rest conflicts
        (toAdd ++ ["            ".data ++ defineStmt])

/-- Embedding of `PatternMerger.mergePermissionProvider`. -/
def mergePermissionProvider (existing newContent : Str) : Str × List Conflict :=
  let newDefines := findAllToks defineStmtToks newContent
  let (conflicts, toAdd) := mergeProviderGo existing newDefines [] []
  if conflicts = [] && toAdd ≠ [] then
    (insertIntoDefineMethod existing (joinLines toAdd), [])
  else (existing, conflicts)

/-- Chain of `public\s+DbSet<(\w+)>\s+(\w+)\s*\{\s*get;\s*set;\s*\}`
(DbSet property extraction of `mergeDbContext`). -/
def dbSetToks : List Tok :=
  [.lit "public".data, .many1 isSpaceRe, .lit "DbSet<".data, .many1 isWordChar,
   .lit ['>'], .many1 isSpaceRe, .many1 isWordChar, .many0 isSpaceRe,
   .lit ['\x7b'], .many0 isSpaceRe, .lit "get;".data, .many0 isSpaceRe,
   .lit "set;".data, .many0 isSpaceRe, .lit ['\x7d']]

/-- Chain of `public\s+DbSet<\w+>\s+NAME\s*\{\s*get;\s*set;\s*\}`
(`extractExistingDbSet`). -/
def existingDbSetToks (propertyName : Str) : List Tok :=
  [.lit "public".data, .many1 isSpaceRe, .lit "DbSet<".data, .many1 isWordChar,
   .lit ['>'], .many1 isSpaceRe, .lit propertyName, .many0 isSpaceRe,
   .lit ['\x7b'], .many0 isSpaceRe, .lit "get;".data, .many0 isSpaceRe,
   .lit "set;".data, .many0 isSpaceRe, .lit ['\x7d']]

/-- Chain of `builder\.Entity<(\w+)>\([^)]+\);` (OnModelCreating
configuration lines). -/
def configToks : List Tok :=
  [.lit "builder.Entity<".data, .many1 isWordChar, .lit ">(".data,
   .many1 (fun c => c ≠ ')'), .lit ");".data]

/-- Re-running `FindStringSubmatch` of the DbSet pattern on a matched
fragment: group 1 is the entity name, group 2 the property name. -/
def dbSetCaptures (dbSet : Str) : Option (Str × Str) := do
  let s := dbSet
  let s ← if hasPrefixStr s "public".data then some (s.drop 6) else none
  let k := munch isSpaceRe s
  let s ← if k = 0 then none else some (s.drop k)
  let s ← if hasPrefixStr s "DbSet<".data then some (s.drop 6) else none
  let k1 := munch isWordChar s
  let entityName := s.take k1
  let s ← if k1 = 0 then none else some (s.drop k1)
  let s ← if hasPrefixStr s ['>'] then some (s.drop 1) else none
  let k2 := munch isSpaceRe s
  let s ← if k2 = 0 then none else some (s.drop k2)
  let k3 := munch isWordChar s
  let propertyName := s.take k3
  if k3 = 0 then none else some (entityName, propertyName)

/-- Embedding of `PatternMerger.extractExistingDbSet`. -/
def extractExistingDbSet (content propertyName : Str) : Str :=
  findTokString (existingDbSetToks propertyName) content

/-- The DbSet loop of `PatternMerger.mergeDbContext`. -/
def mergeDbContextDbSetsGo (existing : Str) :
    List Str → List Conflict → List Str → List Conflict × List Str
  | [], conflicts, toAdd => (conflicts, toAdd)
  | dbSet :: rest, conflicts, toAdd =>
    match dbSetCaptures dbSet with
    | none => mergeDbContextDbSetsGo existing rest conflicts toAdd
    | some (_, propertyName) =>
      if strContains existing (propertyName ++ " \x7b".data) then
        mergeDbContextDbSetsGo existing rest
          (conflicts ++ [{ ctype := .duplicateProperty,
                           description := "DbSet property '".data ++ propertyName ++
                             "' already exists".data,
                           existingCode := extractExistingDbSet existing propertyName,
                           newCode := dbSet }])
          toAdd
      else
        mergeDbContextDbSetsGo existing rest conflicts (toAdd ++ ["    ".data ++ dbSet])

/-- The configuration-line loop of `PatternMerger.mergeDbContext` (never
emits conflicts). -/
def mergeDbContextConfigsGo (existing : Str) : List Str → List Str → List Str
  | [], toAdd => toAdd
  | config :: rest, toAdd =>
    if !strContains existing config then
      mergeDbContextConfigsGo existing rest (toAdd ++ ["            ".data ++ config])
    else mergeDbContextConfigsGo existing rest toAdd

/-- The insertion-point search of `PatternMerger.insertDbSets`: the line
after the last DbSet property, else the OnModelCreating line, else none. -/
def dbInsertAnchor (content : Str) : Option Nat :=
  let lines := splitLines content
  match lines.reverse.findIdx? (fun line =>
      strContains line "DbSet<".data &&
      strContains line "\x7b get; set; \x7d".data) with
  | some j => some (lines.length - 1 - j + 1)
  | none =>
    lines.findIdx? (fun line =>
      strContains line "protected override void OnModelCreating".data)

/-- Embedding of `PatternMerger.insertDbSets`. -/
def insertDbSets (content : Str) (toAdd : List Str) : Str :=
  let lines := splitLines content
  match dbInsertAnchor content with
  | none => content
  | some i => joinLines (lines.take i ++ toAdd ++ lines.drop i)

/-- Embedding of `PatternMerger.mergeDbContext`. -/
def mergeDbContext (existing newContent : Str) : Str × List Conflict :=
  let newDbSets := findAllToks dbSetToks newContent
  let (conflicts, toAdd) := mergeDbContextDbSetsGo existing newDbSets [] []
  let newConfigurations := findAllToks configToks newContent
  let toAdd := mergeDbContextConfigsGo existing newConfigurations toAdd
  if conflicts = [] && toAdd ≠ [] then (insertDbSets existing toAdd, [])
  else (existing, conflicts)

/-- Embedding of `PatternMerger.Merge`. -/
def patternMerge (existing newContent : Str) (fileType : FileType) :
    Except Str (Str × List Conflict) :=
  match fileType with
  | .permissions => .ok (mergePermissions existing newContent)
  | .permissionProvider => .ok (mergePermissionProvider existing newContent)
  | .dbContext | .idbContext => .ok (mergeDbContext existing newContent)
  | _ => .error "unsupported file type for pattern merging".data

/-! ## Shallow C# parser (csharp_parser.go)

The parser is regex-driven; the patterns are embedded as explicit
backtracking matchers with Go's leftmost-first semantics (greedy
repetitions and ordered alternations, trying longer alternatives first and
falling back on failure of the continuation). -/

/-- Embedding of `merger.CSharpProperty`. -/
structure CSharpProperty where
  name : Str
  ptype : Str
  attributes : List Str := []
  getSet : Str := []
  rawContent : Str := []
  line : Nat := 0
deriving DecidableEq

/-- Embedding of `merger.CSharpMethod`. -/
structure CSharpMethod where
  name : Str
  returnType : Str
  parameters : Str
  attributes : List Str := []
  body : Str := []
  rawContent : Str := []
  signature : Str := []
  startLine : Nat := 0
  endLine : Nat := 0
deriving DecidableEq

/-- Embedding of `merger.CSharpClass`. -/
structure CSharpClass where
  name : Str
  baseClass : Str := []
  properties : List CSharpProperty := []
  methods : List CSharpMethod := []
  rawContent : Str := []
  startLine : Nat := 0
  endLine : Nat := 0
deriving DecidableEq

/-- Consume a literal, returning the remainder. -/
def expectS (l s : Str) : Option Str :=
  if hasPrefixStr s l then some (s.drop l.length) else none

/-- Consume `\s+` (greedy, at least one). -/
def wsPlus (s : Str) : Option Str :=
  let k := munch isSpaceRe s
  if k = 0 then none else some (s.drop k)

/-- Consume `\s*` (greedy). -/
def wsStar (s : Str) : Str :=
  s.drop (munch isSpaceRe s)

/-- Consume `\w+`, returning the run and the remainder. -/
def wordPlus (s : Str) : Option (Str × Str) :=
  let k := munch isWordChar s
  if k = 0 then none else some (s.take k, s.drop k)

/-- Embedding of `strings.Split` with a multi-character separator
(used with separator `][` on attribute captures). -/
def splitOnSub (s sep : Str) : List Str :=
  go (s.length + 1) s
where
  go : Nat → Str → List Str
    | 0, s => [s]
    | fuel + 1, s =>
      match indexOfStr s sep with
      | none => [s]
      | some i => s.take i :: go fuel (s.drop (i + sep.length))

/-- The attribute-prefix loop `(?:\[([^\]]+)\]\s*)*`: consumes repeated
attribute groups greedily, returning the remainder and the capture of the
last group (Go keeps the last instance of a repeated capturing group). -/
def attrLoop (fuel : Nat) (s : Str) (lastAttr : Str) : Str × Str :=
  match fuel with
  | 0 => (s, lastAttr)
  | fuel + 1 =>
    match s with
    | '[' :: rest =>
      let k := munch (fun c => c ≠ ']') rest
      if k = 0 then (s, lastAttr)
      else
        match rest.drop k with
        | ']' :: rest' => attrLoop fuel (wsStar rest') (rest.take k)
        | _ => (s, lastAttr)
    | _ => (s, lastAttr)

/-- Anchored match of the property pattern
`^\s*(?:\[([^\]]+)\]\s*)*public\s+(\w+(?:<[^>]+>)?(?:\?)?)\s+(\w+)\s*\{\s*`
`(get;\s*set;|get;\s*private\s+set;|get;\s*init;)\s*\}` at a line start.
Returns (length, last attribute capture, type, name, accessor capture). -/
def matchPropertyAt (s : Str) : Option (Nat × Str × Str × Str × Str) := do
  let s1 := wsStar s
  let (s2, lastAttr) := attrLoop (s1.length + 1) s1 []
  let s3 ← expectS "public".data s2
  let s4 ← wsPlus s3
  let (w, s5) ← wordPlus s4
  -- optional generic argument `<[^>]+>` (committed when it parses; when it
  -- cannot, the following `\s+` fails at `<` anyway, as in the regex)
  let (ty1, s6) :=
    match s5 with
    | '<' :: rest =>
      let k := munch (fun c => c ≠ '>') rest
      if k = 0 then (w, s5)
      else
        match rest.drop k with
        | '>' :: rest' => (w ++ '<' :: rest.take k ++ ['>'], rest')
        | _ => (w, s5)
    | _ => (w, s5)
  -- optional nullable marker `(?:\?)?`
  let (ty, s7) :=
    match s6 with
    | '?' :: rest => (ty1 ++ ['?'], rest)
    | _ => (ty1, s6)
  let s8 ← wsPlus s7
  let (nm, s9) ← wordPlus s8
  let s10 := wsStar s9
  let s11 ← expectS ['\x7b'] s10
  let s12 := wsStar s11
  -- ordered alternation of the accessor group; the capture is the matched
  -- accessor text
  let (acc, s13) ← matchAccessor s12
  let s14 := wsStar s13
  let s15 ← expectS ['\x7d'] s14
  return (s.length - s15.length, lastAttr, ty, nm, acc)
where
  /-- `get;\s*set;` then `get;\s*private\s+set;` then `get;\s*init;`. -/
  matchAccessor (s : Str) : Option (Str × Str) :=
    (do
      let s1 ← expectS "get;".data s
      let s2 := wsStar s1
      let s3 ← expectS "set;".data s2
      return (s.take (s.length - s3.length), s3)) <|>
    (do
      let s1 ← expectS "get;".data s
      let s2 := wsStar s1
      let s3 ← expectS "private".data s2
      let s4 ← wsPlus s3
      let s5 ← expectS "set;".data s4
      return (s.take (s.length - s5.length), s5)) <|>
    (do
      let s1 ← expectS "get;".data s
      let s2 := wsStar s1
      let s3 ← expectS "init;".data s2
      return (s.take (s.length - s3.length), s3))

/-- `FindAllStringSubmatch` driver for line-anchored patterns: walks the
content, attempting the matcher at every line start, collecting
non-overlapping matches leftmost-first.  The matcher returns the consumed
length and its captures. -/
def findAllAnchored (matchAt : Str → Option (Nat × α)) :
    Nat → Bool → Str → List (Str × α)
  | 0, _, _ => []
  | _ + 1, _, [] => []
  | fuel + 1, atLineStart, c :: rest =>
    if atLineStart then
      match matchAt (c :: rest) with
      | some (len, caps) =>
        if len = 0 then findAllAnchored matchAt fuel (c = '\n') rest
        else
          ((c :: rest).take len, caps) ::
            findAllAnchored matchAt fuel
              (((c :: rest).take len).getLast? = some '\n') ((c :: rest).drop len)
      | none => findAllAnchored matchAt fuel (c = '\n') rest
    else findAllAnchored matchAt fuel (c = '\n') rest

/-- Embedding of `CSharpParser.parseProperties`. -/
def parseProperties (content : Str) : List CSharpProperty :=
  (findAllAnchored matchPropertyAt (content.length + 1) true content).map
    (fun m =>
      let (raw, lastAttr, ty, nm, acc) := m
      { name := nm, ptype := ty,
        attributes := if lastAttr ≠ [] then splitOnSub lastAttr "][".data else [],
        getSet := acc, rawContent := raw })

/-- Anchored match of `^using\s+([^;]+);` at a line start: returns the
length and the capture. -/
def matchUsingAt (s : Str) : Option (Nat × Str) := do
  let s1 ← expectS "using".data s
  let s2 ← wsPlus s1
  let k := munch (fun c => c ≠ ';') s2
  if k = 0 then none
  else
    match s2.drop k with
    | ';' :: rest => return (s.length - rest.length, s2.take k)
    | _ => none

/-- Embedding of `CSharpParser.ExtractUsings`. -/
def extractUsings (content : Str) : List Str :=
  (findAllAnchored matchUsingAt (content.length + 1) true content).map
    (fun m => trimSpace m.2)

/-- The append-if-absent loop of `CSharpParser.MergeUsings`; the `usingSet`
membership test is embedded as a lookup in the accumulated list (the set
and the list always hold the same elements). -/
def mergeUsingsGo (acc : List Str) : List Str → List Str
  | [] => acc
  | u :: rest =>
    if acc.contains u then mergeUsingsGo acc rest
    else mergeUsingsGo (acc ++ [u]) rest

/-- Embedding of `CSharpParser.MergeUsings` (order-preserving dedup union:
first the existing entries, then the new ones). -/
def mergeUsings (existing new : List Str) : List Str :=
  mergeUsingsGo (mergeUsingsGo [] existing) new

/-- Tail of the method pattern after the modifier loop:
`(\w+(?:<[^>]+>)?)\s+(\w+)\s*\(([^)]*)\)`.  Returns
(remainder, return type, name, parameters). -/
def matchSigTail (s : Str) : Option (Str × Str × Str × Str) := do
  let (w, s1) ← wordPlus s
  let (ret, s2) :=
    match s1 with
    | '<' :: rest =>
      let k := munch (fun c => c ≠ '>') rest
      if k = 0 then (w, s1)
      else
        match rest.drop k with
        | '>' :: rest' => (w ++ '<' :: rest.take k ++ ['>'], rest')
        | _ => (w, s1)
    | _ => (w, s1)
  let s3 ← wsPlus s2
  let (nm, s4) ← wordPlus s3
  let s5 := wsStar s4
  let s6 ← expectS ['('] s5
  let k := munch (fun c => c ≠ ')') s6
  let params := s6.take k
  let s7 ← expectS [')'] (s6.drop k)
  return (s7, ret, nm, params)

/-- The modifier loop `(?:(?:virtual|override|async|static)\s+)*` followed
by the signature tail, with the regex's greedy backtracking: at each step
the alternatives are tried in pattern order with their full continuation,
and the empty iteration (going straight to the signature) is the final
fallback. -/
def matchModsThenSig (fuel : Nat) (s : Str) : Option (Str × Str × Str × Str) :=
  match fuel with
  | 0 => matchSigTail s
  | fuel + 1 =>
    (do let s1 ← expectS "virtual".data s
        let s2 ← wsPlus s1
        matchModsThenSig fuel s2) <|>
    (do let s1 ← expectS "override".data s
        let s2 ← wsPlus s1
        matchModsThenSig fuel s2) <|>
    (do let s1 ← expectS "async".data s
        let s2 ← wsPlus s1
        matchModsThenSig fuel s2) <|>
    (do let s1 ← expectS "static".data s
        let s2 ← wsPlus s1
        matchModsThenSig fuel s2) <|>
    matchSigTail s

/-- Anchored match of the method pattern
`(?:\[([^\]]+)\]\s*)*public\s+(?:(?:virtual|override|async|static)\s+)*`
`(\w+(?:<[^>]+>)?)\s+(\w+)\s*\(([^)]*)\)`.  Returns
(length, last attribute capture, return type, name, parameters). -/
def matchMethodAt (s : Str) : Option (Nat × Str × Str × Str × Str) := do
  let (s1, lastAttr) := attrLoop (s.length + 1) s []
  let s2 ← expectS "public".data s1
  let s3 ← wsPlus s2
  let (s4, ret, nm, params) ← matchModsThenSig (s3.length + 1) s3
  return (s.length - s4.length, lastAttr, ret, nm, params)

/-- Unanchored `FindAllStringSubmatch` driver: attempts the matcher at
every position, collecting non-overlapping matches leftmost-first. -/
def findAllUnanchored (matchAt : Str → Option (Nat × α)) :
    Nat → Str → List (Str × α)
  | 0, _ => []
  | _ + 1, [] => []
  | fuel + 1, c :: rest =>
    match matchAt (c :: rest) with
    | some (len, caps) =>
      if len = 0 then findAllUnanchored matchAt fuel rest
      else ((c :: rest).take len, caps) ::
        findAllUnanchored matchAt fuel ((c :: rest).drop len)
    | none => findAllUnanchored matchAt fuel rest

/-- The scanning loop of `CSharpParser.extractMethodBody`: brace-depth
count (a Go `int`, so it may go negative), body start at the first `{`,
stop when the count returns to zero inside the body. -/
def extractMethodBodyGo : Str → Int → Bool → Option Nat → Nat → Option (Nat × Nat)
  | [], _, _, _, _ => none
  | c :: rest, braceCount, inBody, bodyStart, i =>
    if c = '\x7b' then
      let bodyStart := if !inBody then some i else bodyStart
      extractMethodBodyGo rest (braceCount + 1) true bodyStart (i + 1)
    else if c = '\x7d' then
      let braceCount := braceCount - 1
      if braceCount = 0 && inBody then
        match bodyStart with
        | some bs => some (bs, i)
        | none => none
      else extractMethodBodyGo rest braceCount inBody bodyStart (i + 1)
    else extractMethodBodyGo rest braceCount inBody bodyStart (i + 1)

/-- Embedding of `CSharpParser.extractMethodBody`. -/
def extractMethodBody (content : Str) : Str :=
  match extractMethodBodyGo content 0 false none 0 with
  | some (bs, i) => (content.drop bs).take (i + 1 - bs)
  | none => []

/-- Embedding of `CSharpParser.createMethodSignature`: parameter names are
dropped (first whitespace-field of each comma-separated part is kept). -/
def createMethodSignature (returnType name parameters : Str) : Str :=
  let paramParts := parameters.splitOn ','
  let paramTypes := paramParts.foldl
    (fun acc part =>
      let part := trimSpace part
      if part = [] then acc
      else
        match fieldsStr part with
        | [] => acc
        | f :: _ => acc ++ [f])
    []
  returnType ++ ' ' :: name ++ '(' :: List.intercalate [','] paramTypes ++ [')']

/-- Embedding of `CSharpParser.parseMethods`: for each pattern match, the
body is captured by brace counting from the first occurrence of the
matched text in the content (`strings.Index`). -/
def parseMethods (content : Str) : List CSharpMethod :=
  (findAllUnanchored matchMethodAt (content.length + 1) content).filterMap
    (fun m =>
      let (matchText, lastAttr, ret, nm, params) := m
      match indexOfStr content matchText with
      | none => none
      | some methodIndex =>
        let body := extractMethodBody (content.drop methodIndex)
        some { name := nm, returnType := ret, parameters := params,
               attributes := if lastAttr ≠ [] then splitOnSub lastAttr "][".data else [],
               body := body,
               rawContent := matchText ++ body,
               signature := createMethodSignature ret nm params })

/-- Anchored match of the class pattern
`public\s+(?:(?:abstract|sealed|static)\s+)?class\s+(\w+)`
`(?:\s*:\s*([^{]+))?\s*\{`.  Returns (name, raw base-list capture). -/
def matchClassDeclAt (s : Str) : Option (Str × Str) := do
  let s1 ← expectS "public".data s
  let s2 ← wsPlus s1
  let afterMod :=
    (do let a ← expectS "abstract".data s2
        wsPlus a) <|>
    (do let a ← expectS "sealed".data s2
        wsPlus a) <|>
    (do let a ← expectS "static".data s2
        wsPlus a)
  -- the optional modifier group: with the modifier if its continuation
  -- matches, falling back to the bare `class`
  (do let s3 ← afterMod
      matchClassTail s3) <|> matchClassTail s2
where
  matchClassTail (s : Str) : Option (Str × Str) := do
    let s1 ← expectS "class".data s
    let s2 ← wsPlus s1
    let (nm, s3) ← wordPlus s2
    -- optional base list `(?:\s*:\s*([^{]+))?` then `\s*\{`
    (do let s4 := wsStar s3
        let s5 ← expectS [':'] s4
        let s6 := wsStar s5
        let k := munch (fun c => c ≠ '\x7b') s6
        if k = 0 then none
        else do
          let _ ← expectS ['\x7b'] (s6.drop k)
          return (nm, s6.take k)) <|>
    (do let s4 := wsStar s3
        let _ ← expectS ['\x7b'] s4
        return (nm, []))

/-- First match of the class pattern anywhere in the content
(`FindStringSubmatch`). -/
def findClassDecl : Nat → Str → Option (Str × Str)
  | 0, _ => none
  | _ + 1, [] => none
  | fuel + 1, c :: rest =>
    match matchClassDeclAt (c :: rest) with
    | some caps => some caps
    | none => findClassDecl fuel rest

/-- Embedding of `CSharpParser.ParseClass`: `none` embeds the Go
`nil, nil` return for content without a class declaration. -/
def parseClass (content : Str) : Option CSharpClass :=
  match findClassDecl (content.length + 1) content with
  | none => none
  | some (nm, rawBase) =>
    some { name := nm,
           baseClass := trimSpace rawBase,
           rawContent := content,
           properties := parseProperties content,
           methods := parseMethods content }

/-- Embedding of `CSharpParser.FindProperty`. -/
def findProperty (cls : CSharpClass) (propertyName : Str) :
    Option CSharpProperty :=
  cls.properties.find? (fun p => p.name = propertyName)

/-- Embedding of `CSharpParser.FindMethod`. -/
def findMethod (cls : CSharpClass) (signature : Str) : Option CSharpMethod :=
  cls.methods.find? (fun m => m.signature = signature)

/-- Embedding of `CSharpParser.HasProperty`. -/
def hasProperty (cls : CSharpClass) (propertyName : Str) : Bool :=
  (findProperty cls propertyName).isSome

/-- Embedding of `CSharpParser.HasMethod`. -/
def hasMethod (cls : CSharpClass) (signature : Str) : Bool :=
  (findMethod cls signature).isSome

/-! ## Structural merger (ast_merger.go) -/

/-- The duplicate-property conflict record built by
`ASTMerger.detectConflicts`. -/
def propConflictOf (existingProp newProp : CSharpProperty) : Conflict :=
  { ctype := .duplicateProperty,
    description := "Property '".data ++ newProp.name ++
      "' exists with different type".data,
    existingCode := existingProp.rawContent,
    newCode := newProp.rawContent,
    line := existingProp.line }

/-- The duplicate-method conflict record built by
`ASTMerger.detectConflicts`. -/
def methodConflictOf (existingMethod newMethod : CSharpMethod) : Conflict :=
  { ctype := .duplicateMethod,
    description := "Method '".data ++ newMethod.name ++
      "' exists with different implementation".data,
    existingCode := existingMethod.rawContent,
    newCode := newMethod.rawContent,
    line := existingMethod.startLine }

/-- The property loop of `ASTMerger.detectConflicts`. -/
def detectPropConflicts (existing : CSharpClass) :
    List CSharpProperty → List Conflict
  | [] => []
  | newProp :: rest =>
    (match findProperty existing newProp.name with
     | some existingProp =>
       if existingProp.ptype ≠ newProp.ptype then [propConflictOf existingProp newProp]
       else []
     | none => []) ++ detectPropConflicts existing rest

/-- The method loop of `ASTMerger.detectConflicts`: a conflict is emitted
when the signature exists and the bodies differ after `strings.TrimSpace`. -/
def detectMethodConflicts (existing : CSharpClass) :
    List CSharpMethod → List Conflict
  | [] => []
  | newMethod :: rest =>
    (match findMethod existing newMethod.signature with
     | some existingMethod =>
       if trimSpace existingMethod.body ≠ trimSpace newMethod.body then
         [methodConflictOf existingMethod newMethod]
       else []
     | none => []) ++ detectMethodConflicts existing rest

/-- Embedding of `ASTMerger.detectConflicts`. -/
def astDetectConflicts (existing new : CSharpClass) : List Conflict :=
  detectPropConflicts existing new.properties ++
    detectMethodConflicts existing new.methods

/-- A parsed class is property-self-clean when every property agrees in
type text with the first property of the same name (trivially true when
property names are distinct). -/
def selfCleanProps (cls : CSharpClass) : Bool :=
  cls.properties.all (fun p =>
    match findProperty cls p.name with
    | some q => decide (q.ptype = p.ptype)
    | none => true)

/-- A parsed class is method-self-clean when every method agrees in
trimmed body text with the first method of the same signature (trivially
true when signatures are distinct). -/
def selfCleanMethods (cls : CSharpClass) : Bool :=
  cls.methods.all (fun mth =>
    match findMethod cls mth.signature with
    | some q => decide (trimSpace q.body = trimSpace mth.body)
    | none => true)

/-- Embedding of `ASTMerger.replaceUsings`: drop everything up to and
including the last line that starts (after trimming) with `using `, and
put the canonical using block in its place. -/
def replaceUsings (content : Str) (usings : List Str) : Str :=
  let lines := splitLines content
  let lastUsingIndex : Option Nat :=
    match lines.reverse.findIdx? (fun line =>
        hasPrefixStr (trimSpace line) "using ".data) with
    | some j => some (lines.length - 1 - j)
    | none => none
  match lastUsingIndex with
  | none => content
  | some i =>
    let usingLines := usings.map (fun u => "using ".data ++ u ++ [';'])
    joinLines (usingLines ++ lines.drop (i + 1))

/-- Embedding of `ASTMerger.mergeProperties`. -/
def astMergeProperties (content : Str) (existing new : CSharpClass) : Str :=
  let toAdd := (new.properties.filter
      (fun p => !hasProperty existing p.name)).map
    (fun p => "    ".data ++ trimSpace p.rawContent)
  if toAdd = [] then content
  else
    let lines := splitLines content
    let insertIndex : Option Nat :=
      match lines.reverse.findIdx? (fun line =>
          strContains line "\x7b get; set; \x7d".data) with
      | some j => some (lines.length - 1 - j + 1)
      | none =>
        match lines.findIdx? (fun line =>
            strContains line ("class ".data ++ existing.name)) with
        | some i =>
          match (lines.drop i).findIdx? (fun l => strContains l ['\x7b']) with
          | some dj => some (i + dj + 1)
          | none => none
        | none => none
    match insertIndex with
    | none => content
    | some i => joinLines (lines.take i ++ toAdd ++ lines.drop i)

/-- The brace-counting scan of `ASTMerger.mergeMethods` locating the
closing brace line of the class (`braceCount` is a Go `int`). -/
def findClassClosingLine (name : Str) :
    List Str → Nat → Int → Bool → Option Nat
  | [], _, _, _ => none
  | line :: rest, i, braceCount, inClass =>
    let inClass := inClass || strContains line ("class ".data ++ name)
    if inClass then
      let braceCount := braceCount + (countChar line '\x7b' : Int) -
        (countChar line '\x7d' : Int)
      if braceCount = 0 && trimSpace line = ['\x7d'] then some i
      else findClassClosingLine name rest (i + 1) braceCount inClass
    else findClassClosingLine name rest (i + 1) braceCount inClass

/-- Embedding of `ASTMerger.mergeMethods` (constructors of an entity are
skipped: a method named like the class is never inserted into an entity). -/
def astMergeMethods (content : Str) (existing new : CSharpClass)
    (fileType : FileType) : Str :=
  let toAdd := (new.methods.filter
      (fun m =>
        !(m.name = existing.name && fileType = FileType.entity) &&
        !hasMethod existing m.signature)).map
    (fun m => '\n' :: trimSpace m.rawContent)
  if toAdd = [] then content
  else
    let lines := splitLines content
    match findClassClosingLine existing.name lines 0 0 false with
    | none => content
    | some i => joinLines (lines.take i ++ toAdd ++ lines.drop i)

/-- Embedding of `ASTMerger.mergeClasses`. -/
def astMergeClasses (original : Str) (existingClass newClass : CSharpClass)
    (fileType : FileType) : Str :=
  let existingUsings := extractUsings original
  let newUsings := extractUsings newClass.rawContent
  let mergedUsings := mergeUsings existingUsings newUsings
  let result := replaceUsings original mergedUsings
  let result := astMergeProperties result existingClass newClass
  astMergeMethods result existingClass newClass fileType

/-- Embedding of `ASTMerger.Merge`. -/
def astMerge (existing newContent : Str) (fileType : FileType) :
    Except Str (Str × List Conflict) :=
  match parseClass existing with
  | none => .error "failed to parse existing class".data
  | some existingClass =>
    match parseClass newContent with
    | none => .error "failed to parse new class".data
    | some newClass =>
      let conflicts := astDetectConflicts existingClass newClass
      if conflicts ≠ [] then .ok (existing, conflicts)
      else .ok (astMergeClasses existing existingClass newClass fileType, [])

/-! ## Concrete instances used by witnesses and counterexamples -/

/-- A minimal permission-registry file (one nested static class). -/
def c1PermFile : Str :=
  ("namespace P\n\x7b\npublic static class M\n\x7b\npublic const string C = \"c\";\n\x7d\n\x7d").data

/-- A minimal entity file whose using block is preceded by a comment line. -/
def c1EntityFile : Str :=
  ("// c\nusing A;\npublic class P\n\x7b\npublic int X \x7b get; set; \x7d\n\x7d").data

/-- The structural merge of `c1EntityFile` with itself: the comment line
before the using block is dropped by the using rewrite. -/
def c1EntityMerged : Str :=
  ("using A;\npublic class P\n\x7b\npublic int X \x7b get; set; \x7d\n\x7d").data

/-- Modelled from the spec: "body text byte-equal modulo whitespace" — two
texts are equal modulo whitespace when they agree after all white space is
removed. -/
def eqModuloWhitespace (a b : Str) : Bool :=
  a.filter (fun c => !isSpaceGo c) = b.filter (fun c => !isSpaceGo c)

/-- Existing shallow model with a user-edited `Recompute` body. -/
def c3Existing : CSharpClass :=
  { name := "Product".data,
    methods := [{ name := "Recompute".data, returnType := "void".data,
                  parameters := [],
                  body := ("\x7b return 1; \x7d").data,
                  rawContent := ("public void Recompute() \x7b return 1; \x7d").data,
                  signature := "void Recompute()".data }] }

/-- New shallow model: the same method whose body differs only in internal
white space. -/
def c3New : CSharpClass :=
  { name := "Product".data,
    methods := [{ name := "Recompute".data, returnType := "void".data,
                  parameters := [],
                  body := ("\x7b return  1; \x7d").data,
                  rawContent := ("public void Recompute() \x7b return  1; \x7d").data,
                  signature := "void Recompute()".data }] }

/-- Scenario S6: existing flat tree. -/
def c4Existing : JObj := [("k", .str "old")]

/-- Scenario S6: new flat tree with a diverging value. -/
def c4New : JObj := [("k", .str "new")]

/-- Two-key existing tree for the conflict-order counterexample. -/
def c6Existing : JObj := [("a", .str "1"), ("b", .str "2")]

/-- Two-key new tree diverging on both keys. -/
def c6New : JObj := [("a", .str "x"), ("b", .str "y")]

/-- Data-context file with neither a DbSet line nor an OnModelCreating
line: `insertDbSets` finds no anchor. -/
def c5DbExisting : Str := ("public class C\n\x7b\n\x7d").data

/-- A new DbSet property disjoint from `c5DbExisting`. -/
def c5DbNew : Str := ("public DbSet<Order> Orders \x7b get; set; \x7d").data

/-- A new registry class disjoint from `c1PermFile`. -/
def c5RegNew : Str := ("public static class N\n\x7b\n\x7d").data

/-- Schema with a many-to-many relation that omits the join entity. -/
def c9Schema : Schema :=
  { solution := { name := "Shop", moduleName := "Catalog" },
    entities :=
      [{ name := "Author",
         properties := [{ name := "Name", ptype := "string" }],
         relations := some { manyToMany := [{ targetEntity := "Book" }] } },
       { name := "Book",
         properties := [{ name := "Title", ptype := "string" }] }] }

/-! ## Theorems -/

/-- Claim C2 (counterexample): an existing file classified as repository is
returned as no-content/no-write before the decision provider is consulted,
even though its derived strategy is structural — refuting both the
"exactly when the strategy is none" biconditional and the claim's
repository clause. -/
theorem C2_repository_skipped_cex :
    engineRoute false false none MergeDecision.merge true FileType.repository =
      EngineOutcome.skipUnmergeable ∧
    getMergeStrategy FileType.repository = MergeStrategy.ast := by
  decide

/-- Claim C2 (amended): for an existing file with force off and no cached
decision, the engine returns no content with write=false without
consulting the decision provider exactly when `Detector.CanMerge` rejects
the kind, and that set is the strategy-none set plus repository: an
existing repository file is skipped even though its strategy is
structural. -/
theorem C2_skip_iff_not_canMerge (asked : MergeDecision) (ft : FileType) :
    (engineRoute false false none asked true ft = EngineOutcome.skipUnmergeable ↔
      canMerge ft = false) ∧
    (canMerge ft = false ↔
      (getMergeStrategy ft = MergeStrategy.none ∨ ft = FileType.repository)) := by
  cases ft <;> cases asked <;> decide

/-- Claim C8: the `update_idempotent` contract of the authoritative
writer copy — when the sentinel occurs in the file's current contents the
call performs no mutation and no write, whatever generator is supplied;
and when the path does not exist and an initial-content generator is
provided, the call synthesizes the initial content and proceeds exactly
as if a file with that content existed, rather than failing. -/
theorem C8_update_idempotent_contract (searchPattern : Str)
    (insertFunc : Str → Except Str Str) (gen : Unit → Except Str Str) :
    (∀ contentStr ig, strContains contentStr searchPattern = true →
        updateFileIdempotent (some contentStr) searchPattern insertFunc ig =
          UFIResult.skipNoWrite) ∧
    (∀ init, gen () = Except.ok init →
      updateFileIdempotent none searchPattern insertFunc (some gen) =
        updateFileIdempotent (some init) searchPattern insertFunc
          (some gen)) := by
  constructor
  · intro contentStr ig h
    simp [updateFileIdempotent, updateFileIdempotentGo, h]
  · intro init hinit
    simp [updateFileIdempotent, hinit]

/-- Witness for C8: a file already containing the sentinel is skipped
without a write, and a missing path with a generator proceeds on the
synthesized content as if it existed. -/
theorem C8_update_idempotent_contract_witness :
    updateFileIdempotent (some "a // s b".data) "// s".data
      (fun c => .ok (c ++ "!".data)) none = UFIResult.skipNoWrite ∧
    updateFileIdempotent none "// s".data (fun c => .ok (c ++ "!".data))
        (some (fun _ => .ok "init".data)) =
      updateFileIdempotent (some "init".data) "// s".data
        (fun c => .ok (c ++ "!".data)) (some (fun _ => .ok "init".data)) := by
  have h := C8_update_idempotent_contract "// s".data
    (fun c => .ok (c ++ "!".data)) (fun _ => .ok "init".data)
  exact ⟨h.1 "a // s b".data none (by decide), h.2 "init".data rfl⟩

/-- Claim C9 (code bug): the schema with a join-entity-less many-to-many
relation passes validation, but the validator's generated join name
(`AuthorBook`, the sorted concatenation it computes) is written to the
`range` copy of the relation and lost: after validation the join-entity
field is still empty. -/
theorem C9_join_entity_write_lost :
    (validate c9Schema).toOption.map
        (fun s => s.entities.map (fun e =>
          ((e.relations.getD {}).manyToMany.map (fun r => r.joinEntity)))) =
      some [[""], []] ∧
    autoJoinEntityName "Author" "Book" = "AuthorBook" := by
  constructor
  · rfl
  · rfl

/-- Claim C10: a conflict whose index has no entry in the resolution map is
treated as keep-existing, so a resolution map with no entries leaves the
existing text unchanged. -/
theorem C10_default_keep_existing (existing newContent : Str)
    (conflicts : List Conflict) (resolutions : ResolutionMap)
    (h : ∀ i, lookupResolution resolutions i = none) :
    resolveConflicts existing conflicts resolutions newContent = existing := by
  unfold resolveConflicts
  split
  · rfl
  · exact go conflicts 0 existing h
where
  go {resolutions : ResolutionMap} {newContent : Str} (cs : List Conflict)
      (i : Nat) (acc : Str)
      (h : ∀ j, lookupResolution resolutions j = none) :
      resolveConflictsGo resolutions newContent cs i acc = acc := by
    induction cs generalizing i acc with
    | nil => rfl
    | cons c rest ih =>
      simp only [resolveConflictsGo, h i, Option.getD_none]
      exact ih (i + 1) acc

/-- Witness for C10: a concrete conflict list under the empty resolution
map returns the existing text. -/
theorem C10_default_keep_existing_witness :
    resolveConflicts "abc".data
      [{ ctype := .duplicateClass, description := [],
         existingCode := "a".data, newCode := "b".data }]
      [] "xyz".data = "abc".data :=
  C10_default_keep_existing "abc".data "xyz".data _ [] (fun _ => rfl)

/-- Claim C7 (counterexample): a skip decision for an existing file outside
merge mode appends nothing to the ledger — the ledger stays empty although
the call decided a skip, so the summary's skip count undercounts skip
decisions. -/
theorem C7_silent_skip_cex :
    writeFileOps false false true ([], true) "p".data "c".data [] =
      ([], OperationType.skip) := by
  rfl

/-- Claim C7 (amended): create and update decisions append exactly one
matching FileOperation, and a merge-mode skip (the engine returned
write=false) appends exactly one skip operation; but a skip of an existing
file outside merge mode only logs — the ledger and hence the summary's
skip count are unchanged by it. -/
theorem C7_ledger_characterization (force mergeMode fileExists shouldWrite : Bool)
    (merged path content : Str) (ops : List FileOperation) :
    ((writeFileOps force mergeMode fileExists (merged, shouldWrite) path content ops).2 =
        OperationType.create →
      (writeFileOps force mergeMode fileExists (merged, shouldWrite) path content ops).1 =
        ops ++ [⟨.create, path, content, false⟩]) ∧
    ((writeFileOps force mergeMode fileExists (merged, shouldWrite) path content ops).2 =
        OperationType.update →
      (writeFileOps force mergeMode fileExists (merged, shouldWrite) path content ops).1 =
          ops ++ [⟨.update, path, content, true⟩] ∨
      (writeFileOps force mergeMode fileExists (merged, shouldWrite) path content ops).1 =
          ops ++ [⟨.update, path, merged, true⟩]) ∧
    (mergeMode = true → fileExists = true → force = false → shouldWrite = false →
      writeFileOps force mergeMode fileExists (merged, shouldWrite) path content ops =
        (ops ++ [⟨.skip, path, content, true⟩], OperationType.skip)) ∧
    (fileExists = true → force = false → mergeMode = false →
      writeFileOps force mergeMode fileExists (merged, shouldWrite) path content ops =
        (ops, OperationType.skip) ∧
      printSummaryCounts
          (writeFileOps force mergeMode fileExists (merged, shouldWrite) path content ops).1 =
        printSummaryCounts ops) := by
  cases force <;> cases mergeMode <;> cases fileExists <;> cases shouldWrite <;>
    simp [writeFileOps]

/-- Witness for C7: a merge-mode skip appends exactly one skip operation. -/
theorem C7_ledger_characterization_witness :
    writeFileOps false true true ("m".data, false) "p".data "c".data [] =
      ([⟨.skip, "p".data, "c".data, true⟩], OperationType.skip) :=
  (C7_ledger_characterization false true true false "m".data "p".data "c".data
      []).2.2.1 rfl rfl rfl rfl

/-- Membership characterization of the property loop of
`ASTMerger.detectConflicts`. -/
theorem mem_detectPropConflicts (e : CSharpClass) (ps : List CSharpProperty)
    (c : Conflict) :
    c ∈ detectPropConflicts e ps ↔
      ∃ p ∈ ps, ∃ q, findProperty e p.name = some q ∧ q.ptype ≠ p.ptype ∧
        c = propConflictOf q p := by
  induction ps with
  | nil => simp [detectPropConflicts]
  | cons p rest ih =>
    simp only [detectPropConflicts, List.mem_append, ih, List.mem_cons]
    constructor
    · rintro (hc | ⟨p', hp', q, hq, hne, rfl⟩)
      · rcases hfind : findProperty e p.name with _ | q
        · simp [hfind] at hc
        · simp only [hfind] at hc
          by_cases hty : q.ptype ≠ p.ptype
          · simp only [if_pos hty, List.mem_singleton] at hc
            exact ⟨p, Or.inl rfl, q, hfind, hty, hc⟩
          · simp [if_neg hty] at hc
      · exact ⟨p', Or.inr hp', q, hq, hne, rfl⟩
    · rintro ⟨p', hp' | hp', q, hq, hne, rfl⟩
      · subst hp'
        exact Or.inl (by simp [hq, if_pos hne])
      · exact Or.inr ⟨p', hp', q, hq, hne, rfl⟩

/-- Membership characterization of the method loop of
`ASTMerger.detectConflicts`. -/
theorem mem_detectMethodConflicts (e : CSharpClass) (ms : List CSharpMethod)
    (c : Conflict) :
    c ∈ detectMethodConflicts e ms ↔
      ∃ m ∈ ms, ∃ q, findMethod e m.signature = some q ∧
        trimSpace q.body ≠ trimSpace m.body ∧ c = methodConflictOf q m := by
  induction ms with
  | nil => simp [detectMethodConflicts]
  | cons m rest ih =>
    simp only [detectMethodConflicts, List.mem_append, ih, List.mem_cons]
    constructor
    · rintro (hc | ⟨m', hm', q, hq, hne, rfl⟩)
      · rcases hfind : findMethod e m.signature with _ | q
        · simp [hfind] at hc
        · simp only [hfind] at hc
          by_cases hb : trimSpace q.body ≠ trimSpace m.body
          · simp only [if_pos hb, List.mem_singleton] at hc
            exact ⟨m, Or.inl rfl, q, hfind, hb, hc⟩
          · simp [if_neg hb] at hc
      · exact ⟨m', Or.inr hm', q, hq, hne, rfl⟩
    · rintro ⟨m', hm' | hm', q, hq, hne, rfl⟩
      · subst hm'
        exact Or.inl (by simp [hq, if_pos hne])
      · exact Or.inr ⟨m', hm', q, hq, hne, rfl⟩

/-- Claim C3 (counterexample): two method bodies that are byte-equal modulo
whitespace (equal once all white space is removed) but differ in internal
spacing still produce a duplicate-method conflict, because the source only
trims the bodies' ends before comparing. -/
theorem C3_whitespace_conflict_cex :
    eqModuloWhitespace ("\x7b return 1; \x7d").data ("\x7b return  1; \x7d").data = true ∧
    astDetectConflicts c3Existing c3New ≠ [] := by
  decide

/-- Claim C3 (amended): a conflict is in the structural conflict list
exactly when a new property's name is found in the existing model with a
different type text (duplicate-property), or a new method's signature key
is found with a body that differs after trimming leading and trailing
white space (duplicate-method); identical type text, or bodies byte-equal
after trimming the ends, produce no conflict. -/
theorem C3_structural_conflict_conditions (e n : CSharpClass) (c : Conflict) :
    c ∈ astDetectConflicts e n ↔
      ((∃ p ∈ n.properties, ∃ q, findProperty e p.name = some q ∧
          q.ptype ≠ p.ptype ∧ c = propConflictOf q p) ∨
       (∃ m ∈ n.methods, ∃ q, findMethod e m.signature = some q ∧
          trimSpace q.body ≠ trimSpace m.body ∧ c = methodConflictOf q m)) := by
  unfold astDetectConflicts
  rw [List.mem_append, mem_detectPropConflicts, mem_detectMethodConflicts]

/-- Claim C6 (counterexample): the structured-data conflict detector
iterates over a Go map; two runs that enumerate the keys of the new tree
in different (both valid) orders produce the same conflicts in different
orders, refuting "same order". -/
theorem C6_order_unstable_cex :
    List.Perm ["a", "b"] (c6New.map Prod.fst) ∧
    List.Perm ["b", "a"] (c6New.map Prod.fst) ∧
    (detectConflictsOrd ["a", "b"] c6Existing c6New).map (fun c => c.key) ≠
      (detectConflictsOrd ["b", "a"] c6Existing c6New).map (fun c => c.key) := by
  refine ⟨by decide, by decide, by decide⟩

/-- Claim C6 (amended): two runs of the structured-data conflict detector
over identical inputs produce the same conflicts up to order — the same
kinds and identifiers as a multiset — whatever key enumeration orders Go's
randomized map iteration chooses; the structural detector is a pure
function of its inputs, so its list is identical between runs. -/
theorem C6_conflicts_stable_up_to_order (existing new : JObj)
    (o1 o2 : List String) (h1 : List.Perm o1 (new.map Prod.fst))
    (h2 : List.Perm o2 (new.map Prod.fst)) :
    List.Perm (detectConflictsOrd o1 existing new)
      (detectConflictsOrd o2 existing new) :=
  List.Perm.filterMap _ (h1.trans h2.symm)

/-- Witness for C6: the two concrete enumeration orders of the
counterexample inputs yield permuted conflict lists. -/
theorem C6_conflicts_stable_up_to_order_witness :
    List.Perm (detectConflictsOrd ["a", "b"] c6Existing c6New)
      (detectConflictsOrd ["b", "a"] c6Existing c6New) :=
  C6_conflicts_stable_up_to_order c6Existing c6New ["a", "b"] ["b", "a"]
    (by decide) (by decide)

/-! ### Structured-data lemmas (for claims C4 and C1) -/

mutual

/-- Deep copy returns an equal value. -/
theorem deepCopyValue_eq : ∀ v : JValue, deepCopyValue v = v
  | .str _ => rfl
  | .num _ => rfl
  | .bool _ => rfl
  | .null => rfl
  | .arr items => congrArg JValue.arr (deepCopyArr_eq items)
  | .obj fields => congrArg JValue.obj (deepCopyObj_eq fields)
termination_by v => (sizeOf v, 0)

/-- Deep copy of object fields returns an equal list. -/
theorem deepCopyObj_eq : ∀ l : List (String × JValue), deepCopyValue.deepCopyObj l = l
  | [] => rfl
  | (k, v) :: rest => by
    rw [deepCopyValue.deepCopyObj, deepCopyValue_eq v, deepCopyObj_eq rest]
termination_by l => (sizeOf l, 1)

/-- Deep copy of array items returns an equal list. -/
theorem deepCopyArr_eq : ∀ l : List JValue, deepCopyValue.deepCopyArr l = l
  | [] => rfl
  | v :: rest => by
    rw [deepCopyValue.deepCopyArr, deepCopyValue_eq v, deepCopyArr_eq rest]
termination_by l => (sizeOf l, 1)

end

mutual

/-- Marshal-equality is reflexive. -/
theorem valuesEqual_refl : ∀ v : JValue, valuesEqual v v = true
  | .str _ => by simp [valuesEqual]
  | .num _ => by simp [valuesEqual]
  | .bool _ => by simp [valuesEqual]
  | .null => rfl
  | .arr items => valuesEqualList_refl items
  | .obj fields => valuesEqualFields_refl fields
termination_by v => (sizeOf v, 0)

/-- Elementwise marshal-equality on arrays is reflexive. -/
theorem valuesEqualList_refl : ∀ l : List JValue, valuesEqualList l l = true
  | [] => rfl
  | v :: rest => by
    rw [valuesEqualList, valuesEqual_refl v, valuesEqualList_refl rest]
    rfl
termination_by l => (sizeOf l, 1)

/-- Elementwise marshal-equality on fields is reflexive. -/
theorem valuesEqualFields_refl : ∀ l : List (String × JValue), valuesEqualFields l l = true
  | [] => rfl
  | (k, v) :: rest => by
    rw [valuesEqualFields, valuesEqual_refl v, valuesEqualFields_refl rest]
    simp
termination_by l => (sizeOf l, 1)

end

/-- Looking up a key just set yields the set value. -/
theorem jGet_jSet_self (m : JObj) (k : String) (v : JValue) :
    jGet (jSet m k v) k = some v := by
  induction m with
  | nil => simp [jSet, jGet]
  | cons kv rest ih =>
    obtain ⟨k', v'⟩ := kv
    by_cases h : k' = k
    · simp [jSet, jGet, h]
    · simp [jSet, jGet, h, ih]

/-- Setting one key does not change the lookup of another. -/
theorem jGet_jSet_ne (m : JObj) (k k' : String) (v : JValue) (h : k' ≠ k) :
    jGet (jSet m k v) k' = jGet m k' := by
  induction m with
  | nil =>
    have : ¬ k = k' := fun hh => h hh.symm
    simp [jSet, jGet, this]
  | cons kv rest ih =>
    obtain ⟨k₀, v₀⟩ := kv
    by_cases h0 : k₀ = k
    · subst h0
      have : ¬ k₀ = k' := fun hh => h hh.symm
      simp [jSet, jGet, this]
    · simp only [jSet, if_neg h0, jGet]
      by_cases h1 : k₀ = k'
      · simp [h1]
      · simp [h1, ih]

/-- Setting a key to the value its first binding already holds is the
identity. -/
theorem jSet_self (m : JObj) (k : String) (v : JValue)
    (h : jGet m k = some v) : jSet m k v = m := by
  induction m with
  | nil => simp [jGet] at h
  | cons kv rest ih =>
    obtain ⟨k₀, v₀⟩ := kv
    by_cases h0 : k₀ = k
    · subst h0
      rw [jGet, if_pos rfl, Option.some_inj] at h
      rw [jSet, if_pos rfl, h]
    · rw [jGet, if_neg h0] at h
      rw [jSet, if_neg h0, ih h]

/-- A successful lookup is a membership. -/
theorem jGet_mem (m : JObj) (k : String) (v : JValue)
    (h : jGet m k = some v) : (k, v) ∈ m := by
  induction m with
  | nil => simp [jGet] at h
  | cons kv rest ih =>
    obtain ⟨k₀, v₀⟩ := kv
    by_cases h0 : k₀ = k
    · subst h0
      rw [jGet, if_pos rfl, Option.some_inj] at h
      exact h ▸ List.mem_cons_self _ _
    · rw [jGet, if_neg h0] at h
      exact List.mem_cons_of_mem _ (ih h)

/-- A false `contains` test means non-membership. -/
theorem contains_false_not_mem {l : List String} {a : String}
    (h : l.contains a = false) : a ∉ l := by
  intro hmem
  simp at h
  exact h hmem

/-- The head key of a list with distinct keys does not recur in the tail. -/
theorem nodupKeys_head_not_mem {k : String} {ks : List String}
    (h : nodupKeys (k :: ks) = true) : k ∉ ks := by
  simp only [nodupKeys, Bool.and_eq_true, Bool.not_eq_true'] at h
  exact contains_false_not_mem h.1

/-- Under distinct keys, a membership determines the lookup. -/
theorem jGet_of_mem_nodup (m : JObj) (k : String) (v : JValue)
    (hmem : (k, v) ∈ m) (hnd : nodupKeys (m.map Prod.fst) = true) :
    jGet m k = some v := by
  induction m with
  | nil => simp at hmem
  | cons kv rest ih =>
    obtain ⟨k₀, v₀⟩ := kv
    rw [List.map_cons] at hnd
    have hnd' : nodupKeys (rest.map Prod.fst) = true := by
      simp only [nodupKeys, Bool.and_eq_true] at hnd
      exact hnd.2
    rcases List.mem_cons.mp hmem with h | h
    · have hk : k = k₀ := congrArg Prod.fst h
      have hv : v = v₀ := congrArg Prod.snd h
      rw [jGet, if_pos hk.symm, hv]
    · have hk0 : k₀ ≠ k := by
        rintro rfl
        exact nodupKeys_head_not_mem hnd (List.mem_map.mpr ⟨(k₀, v), h, rfl⟩)
      rw [jGet, if_neg hk0]
      exact ih h hnd'

/-- Keys absent from the iterated entries are untouched by the merge loop. -/
theorem mergeObjectsGo_jGet_absent (strategy : String) (res l : JObj)
    (k : String) (h : k ∉ l.map Prod.fst) :
    jGet (mergeObjectsGo strategy res l) k = jGet res k := by
  induction l generalizing res with
  | nil => rw [mergeObjectsGo]
  | cons kv rest ih =>
    obtain ⟨k', nv⟩ := kv
    simp only [List.map_cons, List.mem_cons] at h
    push_neg at h
    rw [mergeObjectsGo]
    rcases hres : jGet res k' with _ | ev <;>
      simp only [hres] <;>
      rw [ih _ h.2, jGet_jSet_ne _ _ _ _ h.1]

/-- For a key present on both sides, the merge loop stores
`mergeValue strategy v1 v2` (distinct keys in the new tree). -/
theorem mergeObjectsGo_jGet_present (strategy : String) (l res : JObj)
    (k : String) (v1 v2 : JValue) (hres : jGet res k = some v1)
    (hl : jGet l k = some v2) (hnd : nodupKeys (l.map Prod.fst) = true) :
    jGet (mergeObjectsGo strategy res l) k =
      some (mergeValue strategy v1 v2) := by
  induction l generalizing res with
  | nil => simp [jGet] at hl
  | cons kv rest ih =>
    obtain ⟨k', nv⟩ := kv
    rw [List.map_cons] at hnd
    have hnd' : nodupKeys (rest.map Prod.fst) = true := by
      simp only [nodupKeys, Bool.and_eq_true] at hnd
      exact hnd.2
    by_cases hk : k' = k
    · subst hk
      rw [jGet, if_pos rfl] at hl
      have hv2 : nv = v2 := Option.some_inj.mp hl
      subst hv2
      rw [mergeObjectsGo]
      simp only [hres]
      have habs : k' ∉ rest.map Prod.fst :=
        nodupKeys_head_not_mem hnd
      rw [mergeObjectsGo_jGet_absent _ _ _ _ habs, jGet_jSet_self]
    · rw [jGet, if_neg hk] at hl
      rw [mergeObjectsGo]
      rcases hres' : jGet res k' with _ | ev <;>
        simp only [hres'] <;>
        exact ih _ (by rw [jGet_jSet_ne _ _ _ _ (Ne.symm hk)]; exact hres) hl hnd'

/-- Every conflict's key comes from the enumeration order. -/
theorem key_mem_of_mem_detectConflictsOrd (ord : List String) (e n : JObj)
    (c : JConflict) (h : c ∈ detectConflictsOrd ord e n) : c.key ∈ ord := by
  rw [detectConflictsOrd] at h
  obtain ⟨a, ha, hfa⟩ := List.mem_filterMap.mp h
  split at hfa
  · exact absurd hfa (by simp)
  · split at hfa
    · exact absurd hfa (by simp)
    · split at hfa
      · exact absurd hfa (by simp)
      · cases Option.some_inj.mp hfa
        exact ha

/-- In an enumeration containing a diverging key exactly once, the
conflicts for that key are exactly the one value-divergence conflict
carrying both values. -/
theorem detectConflictsOrd_filter_key (e n : JObj) (k : String)
    (v1 v2 : JValue) (h1 : jGet e k = some v1) (h2 : jGet n k = some v2)
    (hne : valuesEqual v1 v2 = false) :
    ∀ ord : List String, ord.count k = 1 →
      (detectConflictsOrd ord e n).filter (fun c => c.key = k) =
        [⟨k, v1, v2⟩] := by
  intro ord hcount
  induction ord with
  | nil => simp at hcount
  | cons k' rest ih =>
    rw [detectConflictsOrd, List.filterMap_cons]
    by_cases hk : k' = k
    · subst hk
      have hrest0 : rest.count k' = 0 := by
        rw [List.count_cons_self] at hcount
        omega
      have hrest : k' ∉ rest := List.count_eq_zero.mp hrest0
      rw [h2, h1]
      dsimp only
      rw [if_neg (by simp [hne]), List.filter_cons_of_pos (by simp)]
      have hnil : (detectConflictsOrd rest e n).filter
          (fun c => c.key = k') = [] := by
        rw [List.filter_eq_nil_iff]
        intro c hc
        simp only [decide_eq_true_eq]
        intro hkey
        exact hrest (hkey ▸ key_mem_of_mem_detectConflictsOrd rest e n c hc)
      rw [detectConflictsOrd] at hnil
      rw [hnil]
    · have hcount' : rest.count k = 1 := by
        rwa [List.count_cons_of_ne (Ne.symm hk)] at hcount
      have htail := ih hcount'
      rw [detectConflictsOrd] at htail
      rcases hn : jGet n k' with _ | nv
      · dsimp only
        exact htail
      · rcases he : jGet e k' with _ | ev
        · dsimp only
          exact htail
        · dsimp only
          by_cases heq : valuesEqual ev nv = true
          · rw [if_pos heq]
            exact htail
          · rw [if_neg heq, List.filter_cons_of_neg (by simp [hk])]
            exact htail

/-- Boolean key distinctness implies `Nodup`. -/
theorem nodupKeys_nodup : ∀ {l : List String}, nodupKeys l = true → l.Nodup := by
  intro l h
  induction l with
  | nil => exact List.nodup_nil
  | cons k ks ih =>
    simp only [nodupKeys, Bool.and_eq_true, Bool.not_eq_true'] at h
    exact List.nodup_cons.mpr ⟨contains_false_not_mem h.1, ih h.2⟩

/-- Claim C4: structured-data merge of two flat key-trees with a key
present on both sides and deeply-unequal values — under overwrite the
merged tree maps the key to the new value with no conflicts, under skip to
the existing value with no conflicts, and under append to the existing
value with exactly one value-divergence conflict carrying both values;
divergence conflicts are surfaced only under append. -/
theorem C4_flat_divergence (existing new : JObj) (k : String) (v1 v2 : JValue)
    (hndE : nodupKeys (existing.map Prod.fst) = true)
    (hndN : nodupKeys (new.map Prod.fst) = true)
    (hflatE : jFlat existing = true)
    (h1 : jGet existing k = some v1) (h2 : jGet new k = some v2)
    (hne : valuesEqual v1 v2 = false) :
    jGet (mergeObjects "overwrite" existing new) k = some v2 ∧
    (jsonMerge "overwrite" existing new).2 = [] ∧
    jGet (mergeObjects "skip" existing new) k = some v1 ∧
    (jsonMerge "skip" existing new).2 = [] ∧
    jGet (mergeObjects "append" existing new) k = some v1 ∧
    ((jsonMerge "append" existing new).2).filter (fun c => c.key = k) =
      [⟨k, v1, v2⟩] := by
  have hv1flat : ∀ w, mergeValue "append" v1 w = v1 := by
    intro w
    have hmem := jGet_mem existing k v1 h1
    have hf := (List.all_eq_true.mp hflatE) _ hmem
    cases v1 with
    | obj m => simp at hf
    | arr a => simp at hf
    | str s => rw [mergeValue.eq_def]; simp
    | num n => rw [mergeValue.eq_def]; simp
    | bool b => rw [mergeValue.eq_def]; simp
    | null => rw [mergeValue.eq_def]; simp
  have hmerge : ∀ strategy, mergeObjects strategy existing new =
      mergeObjectsGo strategy existing new := by
    intro strategy
    rw [mergeObjects, deepCopyObj_eq]
  refine ⟨?_, ?_, ?_, ?_, ?_, ?_⟩
  · rw [hmerge, mergeObjectsGo_jGet_present _ _ _ _ _ _ h1 h2 hndN]
    rw [mergeValue.eq_def]
    simp [deepCopyValue_eq]
  · simp [jsonMerge]
  · rw [hmerge, mergeObjectsGo_jGet_present _ _ _ _ _ _ h1 h2 hndN]
    rw [mergeValue.eq_def]
    simp
  · simp [jsonMerge]
  · rw [hmerge, mergeObjectsGo_jGet_present _ _ _ _ _ _ h1 h2 hndN, hv1flat]
  · have hkmem : k ∈ new.map Prod.fst := by
      exact List.mem_map.mpr ⟨(k, v2), jGet_mem new k v2 h2, rfl⟩
    have hcount : (new.map Prod.fst).count k = 1 :=
      List.count_eq_one_of_mem (nodupKeys_nodup hndN) hkmem
    have := detectConflictsOrd_filter_key existing new k v1 v2 h1 h2 hne
      (new.map Prod.fst) hcount
    simpa [jsonMerge, detectConflicts] using this

/-- Witness for C4: the S6 scenario — existing `{"k":"old"}`, new
`{"k":"new"}` — evaluated through the theorem. -/
theorem C4_flat_divergence_witness :
    jGet (mergeObjects "overwrite" c4Existing c4New) "k" = some (.str "new") ∧
    jGet (mergeObjects "skip" c4Existing c4New) "k" = some (.str "old") ∧
    jGet (mergeObjects "append" c4Existing c4New) "k" = some (.str "old") ∧
    ((jsonMerge "append" c4Existing c4New).2).filter (fun c => c.key = "k") =
      [⟨"k", .str "old", .str "new"⟩] := by
  have h := C4_flat_divergence c4Existing c4New "k" (.str "old") (.str "new")
    (by decide) (by decide) (by decide) rfl rfl (by decide)
  exact ⟨h.1, h.2.2.1, h.2.2.2.2.1, h.2.2.2.2.2⟩

/-- Self-merge of an array adds nothing: every new item already has an
equal existing item. -/
theorem mergeArrays_self (a : List JValue) : mergeArrays a a = a := by
  unfold mergeArrays
  have hfil : a.filter
      (fun newItem => !(a.any (fun e => valuesEqual e newItem))) = [] := by
    rw [List.filter_eq_nil_iff]
    intro n hn
    have h : a.any (fun e => valuesEqual e n) = true :=
      List.any_eq_true.mpr ⟨n, hn, valuesEqual_refl n⟩
    simp [h]
  rw [hfil, List.append_nil]

/-- The per-key conflict scan of a tree against itself reports nothing,
whatever order the `range` loop visits the keys in. -/
theorem detectConflictsOrd_self (ord : List String) (t : JObj) :
    detectConflictsOrd ord t t = [] := by
  unfold detectConflictsOrd
  rw [List.filterMap_eq_nil_iff]
  intro k _
  rcases h : jGet t k with _ | v
  · rfl
  · simp [valuesEqual_refl]

mutual

/-- Merging a well-formed value with itself returns it unchanged, under
every strategy tag. -/
theorem mergeValue_self : ∀ (strategy : String) (v : JValue),
    jwfV v = true → mergeValue strategy v v = v
  | strategy, v, h => by
    rw [mergeValue.eq_def]
    by_cases ho : strategy = "overwrite"
    · rw [if_pos ho]; exact deepCopyValue_eq v
    · rw [if_neg ho]
      by_cases hs : strategy = "skip"
      · rw [if_pos hs]
      · rw [if_neg hs]
        cases v with
        | obj fields =>
          dsimp only
          rw [deepCopyObj_eq]
          simp only [jwfV, Bool.and_eq_true] at h
          rw [mergeObjectsGo_fix strategy fields fields
            (fun kv hkv => jGet_of_mem_nodup fields kv.1 kv.2 hkv h.1) h.2]
        | arr items => dsimp only; rw [mergeArrays_self]
        | str s => rfl
        | num n => rfl
        | bool b => rfl
        | null => rfl
termination_by strategy v h => (sizeOf v, 0)

/-- The `mergeObjects` loop is a no-op when every entry of `new` is already
bound identically in the accumulator. -/
theorem mergeObjectsGo_fix : ∀ (strategy : String) (m l : JObj),
    (∀ kv ∈ l, jGet m kv.1 = some kv.2) → jwfFields l = true →
    mergeObjectsGo strategy m l = m
  | strategy, m, [], _, _ => by rw [mergeObjectsGo]
  | strategy, m, (k, v) :: rest, hsub, hwf => by
    have hget : jGet m k = some v := hsub (k, v) (List.mem_cons_self _ _)
    simp only [jwfFields, Bool.and_eq_true] at hwf
    rw [mergeObjectsGo, hget]
    dsimp only
    rw [mergeValue_self strategy v hwf.1, jSet_self m k v hget]
    exact mergeObjectsGo_fix strategy m rest
      (fun kv hkv => hsub kv (List.mem_cons_of_mem _ hkv)) hwf.2
termination_by strategy m l hsub hwf => (sizeOf l, 1)

end

/-- The structured-data merge of a well-formed tree with itself returns the
tree unchanged with no conflicts, under every strategy tag. -/
theorem jsonMerge_self (strategy : String) (t : JObj) (h : jwfObj t = true) :
    jsonMerge strategy t t = (t, []) := by
  unfold jsonMerge
  simp only [jwfObj, Bool.and_eq_true] at h
  have hm : mergeObjects strategy t t = t := by
    rw [mergeObjects, deepCopyObj_eq]
    exact mergeObjectsGo_fix strategy t t
      (fun kv hkv => jGet_of_mem_nodup t kv.1 kv.2 hkv h.1) h.2
  rw [hm]
  by_cases ha : strategy = "append"
  · rw [if_pos ha, detectConflicts, detectConflictsOrd_self]
  · rw [if_neg ha]

/-! ### Structural self-merge lemmas (for claim C1) -/

/-- `contains` from membership on embedded strings. -/
theorem contains_of_memStr {l : List Str} {a : Str} (h : a ∈ l) :
    l.contains a = true := by
  simpa using h

/-- Membership from `contains` on embedded strings. -/
theorem mem_of_containsStr {l : List Str} {a : Str}
    (h : l.contains a = true) : a ∈ l := by
  simpa using h

/-- A class has each of its own properties. -/
theorem hasProperty_of_mem (cls : CSharpClass) (p : CSharpProperty)
    (h : p ∈ cls.properties) : hasProperty cls p.name = true := by
  unfold hasProperty findProperty
  rw [List.find?_isSome]
  exact ⟨p, h, by simp⟩

/-- A class has each of its own methods. -/
theorem hasMethod_of_mem (cls : CSharpClass) (m : CSharpMethod)
    (h : m ∈ cls.methods) : hasMethod cls m.signature = true := by
  unfold hasMethod findMethod
  rw [List.find?_isSome]
  exact ⟨m, h, by simp⟩

/-- The property loop emits nothing when every scanned property agrees in
type with its first namesake. -/
theorem detectPropConflicts_self (m : CSharpClass) :
    ∀ l : List CSharpProperty,
    (∀ p ∈ l, ∀ q, findProperty m p.name = some q → q.ptype = p.ptype) →
    detectPropConflicts m l = []
  | [], _ => rfl
  | p :: rest, h => by
    rw [detectPropConflicts]
    rcases hf : findProperty m p.name with _ | q
    · rw [List.nil_append]
      exact detectPropConflicts_self m rest
        (fun p' hp' => h p' (List.mem_cons_of_mem _ hp'))
    · dsimp only
      rw [if_neg (not_not_intro (h p (List.mem_cons_self _ _) q hf)),
        List.nil_append]
      exact detectPropConflicts_self m rest
        (fun p' hp' => h p' (List.mem_cons_of_mem _ hp'))

/-- The method loop emits nothing when every scanned method agrees in
trimmed body with its first signature-namesake. -/
theorem detectMethodConflicts_self (m : CSharpClass) :
    ∀ l : List CSharpMethod,
    (∀ mth ∈ l, ∀ q, findMethod m mth.signature = some q →
      trimSpace q.body = trimSpace mth.body) →
    detectMethodConflicts m l = []
  | [], _ => rfl
  | mth :: rest, h => by
    rw [detectMethodConflicts]
    rcases hf : findMethod m mth.signature with _ | q
    · rw [List.nil_append]
      exact detectMethodConflicts_self m rest
        (fun p' hp' => h p' (List.mem_cons_of_mem _ hp'))
    · dsimp only
      rw [if_neg (not_not_intro (h mth (List.mem_cons_self _ _) q hf)),
        List.nil_append]
      exact detectMethodConflicts_self m rest
        (fun p' hp' => h p' (List.mem_cons_of_mem _ hp'))

/-- Merging a class's properties into itself changes nothing: every
property is already present. -/
theorem astMergeProperties_self (content : Str) (m : CSharpClass) :
    astMergeProperties content m m = content := by
  unfold astMergeProperties
  have hfil : m.properties.filter (fun p => !hasProperty m p.name) = [] := by
    rw [List.filter_eq_nil_iff]
    intro p hp
    simp [hasProperty_of_mem m p hp]
  rw [hfil, List.map_nil]
  rfl

/-- Merging a class's methods into itself changes nothing: every method is
already present. -/
theorem astMergeMethods_self (content : Str) (m : CSharpClass)
    (ft : FileType) : astMergeMethods content m m ft = content := by
  unfold astMergeMethods
  have hfil : m.methods.filter
      (fun mth => !(mth.name = m.name && ft = FileType.entity) &&
        !hasMethod m mth.signature) = [] := by
    rw [List.filter_eq_nil_iff]
    intro mth hm
    simp [hasMethod_of_mem m mth hm]
  rw [hfil, List.map_nil]
  rfl

/-- Elements of the accumulator survive the `MergeUsings` loop. -/
theorem mergeUsingsGo_mem_acc :
    ∀ (acc l : List Str) (a : Str), a ∈ acc → a ∈ mergeUsingsGo acc l
  | acc, [], _, h => by rw [mergeUsingsGo]; exact h
  | acc, u :: rest, a, h => by
    rw [mergeUsingsGo]
    by_cases hc : acc.contains u = true
    · rw [if_pos hc]; exact mergeUsingsGo_mem_acc acc rest a h
    · rw [if_neg hc]
      exact mergeUsingsGo_mem_acc _ rest a (List.mem_append_left _ h)

/-- Scanned elements end up in the result of the `MergeUsings` loop. -/
theorem mergeUsingsGo_mem_arg :
    ∀ (acc l : List Str) (a : Str), a ∈ l → a ∈ mergeUsingsGo acc l
  | acc, u :: rest, a, h => by
    rw [mergeUsingsGo]
    rcases List.mem_cons.mp h with rfl | h'
    · by_cases hc : acc.contains a = true
      · rw [if_pos hc]
        exact mergeUsingsGo_mem_acc _ rest a (mem_of_containsStr hc)
      · rw [if_neg hc]
        exact mergeUsingsGo_mem_acc _ rest a
          (List.mem_append_right _ (List.mem_singleton.mpr rfl))
    · by_cases hc : acc.contains u = true
      · rw [if_pos hc]; exact mergeUsingsGo_mem_arg acc rest a h'
      · rw [if_neg hc]; exact mergeUsingsGo_mem_arg _ rest a h'

/-- The `MergeUsings` loop is a no-op when everything scanned is already
accumulated. -/
theorem mergeUsingsGo_id :
    ∀ (acc l : List Str), (∀ a ∈ l, acc.contains a = true) →
      mergeUsingsGo acc l = acc
  | _, [], _ => by rw [mergeUsingsGo]
  | acc, u :: rest, h => by
    rw [mergeUsingsGo, if_pos (h u (List.mem_cons_self _ _))]
    exact mergeUsingsGo_id acc rest (fun a ha => h a (List.mem_cons_of_mem _ ha))

/-- `MergeUsings` of a using list with itself is its dedup. -/
theorem mergeUsings_self (u : List Str) :
    mergeUsings u u = mergeUsingsGo [] u := by
  unfold mergeUsings
  exact mergeUsingsGo_id _ u
    (fun a ha => contains_of_memStr (mergeUsingsGo_mem_arg [] u a ha))

/-- The parser records the whole input as the class's raw content. -/
theorem parseClass_rawContent (x : Str) (m : CSharpClass)
    (h : parseClass x = some m) : m.rawContent = x := by
  unfold parseClass at h
  rcases hfd : findClassDecl (x.length + 1) x with _ | ⟨nm, rb⟩ <;>
    rw [hfd] at h
  · cases h
  · obtain rfl := Option.some_inj.mp h
    rfl

/-- Structural merge of a parseable self-clean file with itself: no
conflicts, and the merged text is the input with its leading section up to
the last `using` line replaced by the deduplicated using block. -/
theorem astMerge_self (x : Str) (m : CSharpClass) (ft : FileType)
    (hm : parseClass x = some m)
    (hp : selfCleanProps m = true) (hq : selfCleanMethods m = true) :
    astMerge x x ft =
      .ok (replaceUsings x (mergeUsingsGo [] (extractUsings x)), []) := by
  have hraw := parseClass_rawContent x m hm
  have hpc : detectPropConflicts m m.properties = [] := by
    refine detectPropConflicts_self m m.properties (fun p hpm q hfq => ?_)
    have := List.all_eq_true.mp hp p hpm
    rw [hfq] at this
    exact of_decide_eq_true this
  have hmc : detectMethodConflicts m m.methods = [] := by
    refine detectMethodConflicts_self m m.methods (fun mth hmm q hfq => ?_)
    have := List.all_eq_true.mp hq mth hmm
    rw [hfq] at this
    exact of_decide_eq_true this
  have hconf : astDetectConflicts m m = [] := by
    rw [astDetectConflicts, hpc, hmc, List.nil_append]
  unfold astMerge
  rw [hm]
  dsimp only
  rw [hconf, if_neg (not_not_intro rfl)]
  unfold astMergeClasses
  rw [hraw]
  simp only [mergeUsings_self, astMergeProperties_self, astMergeMethods_self]

/-! ### Token-chain lemmas (for claims C1 and C5) -/

/-- `munch` never runs past the end of the string. -/
theorem munch_le_length (p : Char → Bool) : ∀ s : Str, munch p s ≤ s.length
  | [] => Nat.le_refl 0
  | c :: rest => by
    rw [munch]
    by_cases hc : p c = true
    · rw [if_pos hc]
      simpa using Nat.succ_le_succ (munch_le_length p rest)
    · rw [if_neg hc]
      simp

/-- The munched prefix satisfies the class everywhere. -/
theorem munch_take_all (p : Char → Bool) :
    ∀ s : Str, (s.take (munch p s)).all p = true
  | [] => rfl
  | c :: rest => by
    rw [munch]
    by_cases hc : p c = true
    · rw [if_pos hc, List.take_succ_cons, List.all_cons, hc,
        Bool.true_and]
      exact munch_take_all p rest
    · rw [if_neg hc, List.take_zero]
      rfl

/-- `munch` passes over a fully satisfying prefix. -/
theorem munch_append_all (p : Char → Bool) :
    ∀ (A t : Str), A.all p = true → munch p (A ++ t) = A.length + munch p t
  | [], t, _ => by simp
  | a :: A', t, h => by
    rw [List.all_cons, Bool.and_eq_true] at h
    rw [List.cons_append, munch, if_pos h.1,
      munch_append_all p A' t h.2]
    simp [Nat.add_assoc, Nat.add_comm 1]

/-- `munch` stops at the first failing character. -/
theorem munch_append_stop (p : Char → Bool) (A : Str) (c : Char) (u : Str)
    (hA : A.all p = true) (hc : p c = false) :
    munch p (A ++ c :: u) = A.length := by
  rw [munch_append_all p A _ hA, munch, if_neg (by simp [hc])]
  rfl

/-- Every string has itself as a prefix extended arbitrarily. -/
theorem hasPrefixStr_append : ∀ (l t : Str), hasPrefixStr (l ++ t) l = true
  | [], t => by rw [List.nil_append]; cases t <;> rfl
  | c :: l', t => by
    rw [List.cons_append, hasPrefixStr]
    simp [hasPrefixStr_append l' t]

/-- A true prefix test decomposes the string. -/
theorem hasPrefixStr_decomp : ∀ (s l : Str), hasPrefixStr s l = true →
    s = l ++ s.drop l.length
  | s, [], _ => by simp
  | [], c :: l', h => by cases h
  | d :: s', c :: l', h => by
    rw [hasPrefixStr, Bool.and_eq_true] at h
    have hd : d = c := by simpa using h.1
    rw [List.cons_append, List.length_cons, List.drop_succ_cons, hd]
    exact congrArg (c :: ·) (hasPrefixStr_decomp s' l' h.2)

/-- Inversion of a literal token at the head of a chain. -/
theorem runToks_lit_inv {l : Str} {ts : List Tok} {s : Str} {k : Nat}
    (h : runToks (.lit l :: ts) s = some k) :
    ∃ t k', s = l ++ t ∧ runToks ts t = some k' ∧ k = k' + l.length := by
  rw [runToks] at h
  by_cases hp : hasPrefixStr s l = true
  · rw [if_pos hp] at h
    obtain ⟨k', hk', hsum⟩ := Option.map_eq_some'.mp h
    exact ⟨s.drop l.length, k', hasPrefixStr_decomp s l hp, hk', hsum.symm⟩
  · rw [if_neg hp] at h
    cases h

/-- Inversion of a `many1` token at the head of a chain. -/
theorem runToks_many1_inv {p : Char → Bool} {ts : List Tok} {s : Str} {k : Nat}
    (h : runToks (.many1 p :: ts) s = some k) :
    ∃ A t k', s = A ++ t ∧ A.all p = true ∧ A ≠ [] ∧ A.length = munch p s ∧
      runToks ts t = some k' ∧ k = k' + A.length := by
  rw [runToks] at h
  by_cases h0 : munch p s = 0
  · rw [if_pos h0] at h
    cases h
  · rw [if_neg h0] at h
    obtain ⟨k', hk', hsum⟩ := Option.map_eq_some'.mp h
    have hlen : (s.take (munch p s)).length = munch p s := by
      rw [List.length_take]
      exact Nat.min_eq_left (munch_le_length p s)
    refine ⟨s.take (munch p s), s.drop (munch p s), k',
      (List.take_append_drop _ s).symm, munch_take_all p s, ?_, hlen, hk', ?_⟩
    · intro hnil
      rw [hnil] at hlen
      exact h0 hlen.symm
    · rw [hlen]
      exact hsum.symm

/-- Inversion of a `many0` token at the head of a chain. -/
theorem runToks_many0_inv {p : Char → Bool} {ts : List Tok} {s : Str} {k : Nat}
    (h : runToks (.many0 p :: ts) s = some k) :
    ∃ A t k', s = A ++ t ∧ A.all p = true ∧ A.length = munch p s ∧
      runToks ts t = some k' ∧ k = k' + A.length := by
  rw [runToks] at h
  obtain ⟨k', hk', hsum⟩ := Option.map_eq_some'.mp h
  have hlen : (s.take (munch p s)).length = munch p s := by
    rw [List.length_take]
    exact Nat.min_eq_left (munch_le_length p s)
  refine ⟨s.take (munch p s), s.drop (munch p s), k',
    (List.take_append_drop _ s).symm, munch_take_all p s, hlen, hk', ?_⟩
  rw [hlen]
  exact hsum.symm

/-- Forward evaluation of a literal token. -/
theorem runToks_lit_fwd {l t : Str} {ts : List Tok} {k : Nat}
    (h : runToks ts t = some k) :
    runToks (.lit l :: ts) (l ++ t) = some (k + l.length) := by
  rw [runToks, if_pos (hasPrefixStr_append l t), List.drop_left, h]
  rfl

/-- Forward evaluation of a `many1` token over a maximal satisfying run. -/
theorem runToks_many1_fwd {p : Char → Bool} {A : Str} {c : Char} {u : Str}
    {ts : List Tok} {k : Nat} (hA : A.all p = true) (hA0 : A ≠ [])
    (hc : p c = false) (h : runToks ts (c :: u) = some k) :
    runToks (.many1 p :: ts) (A ++ c :: u) = some (k + A.length) := by
  rw [runToks]
  rw [munch_append_stop p A c u hA hc,
    if_neg (by simpa using fun hz => hA0 (List.length_eq_zero.mp hz)),
    List.drop_left, h]
  rfl

/-- Forward evaluation of a `many0` token over a maximal satisfying run. -/
theorem runToks_many0_fwd {p : Char → Bool} {A : Str} {c : Char} {u : Str}
    {ts : List Tok} {k : Nat} (hA : A.all p = true)
    (hc : p c = false) (h : runToks ts (c :: u) = some k) :
    runToks (.many0 p :: ts) (A ++ c :: u) = some (k + A.length) := by
  rw [runToks]
  rw [munch_append_stop p A c u hA hc, List.drop_left, h]
  rfl

/-- A reported leftmost match really runs at its reported position. -/
theorem findTokMatch_run {ts : List Tok} :
    ∀ {s : Str} {p k : Nat}, findTokMatch ts s = some (p, k) →
      runToks ts (s.drop p) = some k := by
  intro s
  induction s with
  | nil =>
    intro p k h
    rw [findTokMatch] at h
    obtain ⟨a, ha, hpk⟩ := Option.map_eq_some'.mp h
    injection hpk with h1 h2
    subst h1
    subst h2
    rw [List.drop_nil]
    exact ha
  | cons c rest ih =>
    intro p k h
    rw [findTokMatch] at h
    rcases hr : runToks ts (c :: rest) with _ | k₀ <;> rw [hr] at h <;>
      dsimp only at h
    · obtain ⟨⟨p', k'⟩, hfind, hpk⟩ := Option.map_eq_some'.mp h
      injection hpk with h1 h2
      subst h1
      subst h2
      rw [List.drop_succ_cons]
      exact ih hfind
    · injection h with h'
      injection h' with h1 h2
      subst h1
      subst h2
      rw [List.drop_zero]
      exact hr

/-- A chain running anywhere in the string makes the scan succeed. -/
theorem findTokMatch_isSome_of_run {ts : List Tok} :
    ∀ (s : Str) (p : Nat), (runToks ts (s.drop p)).isSome = true →
      (findTokMatch ts s).isSome = true
  | [], p, h => by
    rw [List.drop_nil] at h
    obtain ⟨a, ha⟩ := Option.isSome_iff_exists.mp h
    rw [findTokMatch, ha]
    rfl
  | c :: rest, p, h => by
    rw [findTokMatch]
    rcases hr : runToks ts (c :: rest) with _ | k₀
    · dsimp only
      have hrec : (findTokMatch ts rest).isSome = true := by
        cases p with
        | zero =>
          rw [List.drop_zero, hr] at h
          cases h
        | succ p' =>
          rw [List.drop_succ_cons] at h
          exact findTokMatch_isSome_of_run rest p' h
      obtain ⟨⟨a, b⟩, hab⟩ := Option.isSome_iff_exists.mp hrec
      rw [hab]
      rfl
    · rfl

/-- Every slice produced by the `FindAllString` loop is a match of the
chain at some position of the input. -/
theorem mem_findAllToksGo {ts : List Tok} :
    ∀ (fuel : Nat) (s frag : Str), frag ∈ findAllToksGo ts fuel s →
      ∃ p k, runToks ts (s.drop p) = some k ∧ frag = (s.drop p).take k
  | 0, s, frag, h => by rw [findAllToksGo] at h; cases h
  | _ + 1, [], frag, h => by rw [findAllToksGo] at h; cases h
  | fuel + 1, c :: rest, frag, h => by
    rw [findAllToksGo] at h
    rcases heq : findTokMatch ts (c :: rest) with _ | ⟨a, b⟩ <;>
      rw [heq] at h <;> dsimp only at h
    · cases h
    · rcases List.mem_cons.mp h with rfl | h'
      · exact ⟨a, b, findTokMatch_run heq, rfl⟩
      · obtain ⟨p', k', hrun, hfrag⟩ := mem_findAllToksGo fuel _ frag h'
        rw [List.drop_drop] at hrun hfrag
        exact ⟨a + b.max 1 + p', k', hrun, hfrag⟩

/-- Every slice produced by `findAllToks` is a match of the chain at some
position of the input. -/
theorem mem_findAllToks {ts : List Tok} :
    ∀ (s frag : Str), frag ∈ findAllToks ts s →
      ∃ p k, runToks ts (s.drop p) = some k ∧ frag = (s.drop p).take k :=
  fun s frag h => mem_findAllToksGo (s.length + 1) s frag h

/-- The five `\s` characters are not word characters. -/
theorem space_not_word {c : Char} (h : isSpaceRe c = true) :
    isWordChar c = false := by
  rw [isSpaceRe] at h
  simp only [Bool.or_eq_true, decide_eq_true_eq] at h
  rcases h with ((((rfl | rfl) | rfl) | rfl) | rfl) <;> decide

/-- Word characters are not white space. -/
theorem word_not_space {c : Char} (h : isWordChar c = true) :
    isSpaceRe c = false := by
  by_contra hs
  rw [Bool.not_eq_false] at hs
  rw [space_not_word hs] at h
  cases h

/-- `takeWhile` passes over a fully satisfying prefix. -/
theorem takeWhile_append_all {p : Char → Bool} :
    ∀ {a b : List Char}, a.all p = true →
      (a ++ b).takeWhile p = a ++ b.takeWhile p
  | [], _, _ => rfl
  | c :: a', b, h => by
    rw [List.all_cons, Bool.and_eq_true] at h
    rw [List.cons_append, List.takeWhile_cons, if_pos h.1,
      takeWhile_append_all h.2, List.cons_append]

/-- Forward run of the `public\s+static\s+class\s+` header common to the
permission-class chains, given a run of the rest of the chain. -/
theorem runToks_header_fwd {A B C : Str} {rest : List Tok} {t : Str} {k : Nat}
    (hA : A.all isSpaceRe = true) (hA0 : A ≠ [])
    (hB : B.all isSpaceRe = true) (hB0 : B ≠ [])
    (hC : C.all isSpaceRe = true) (hC0 : C ≠ [])
    (c : Char) (u : Str) (hcw : isSpaceRe c = false) (ht : t = c :: u)
    (h : runToks rest t = some k) :
    runToks (.lit "public".data :: .many1 isSpaceRe :: .lit "static".data ::
        .many1 isSpaceRe :: .lit "class".data :: .many1 isSpaceRe :: rest)
      ("public".data ++ (A ++ ("static".data ++ (B ++ ("class".data ++
        (C ++ t)))))) =
      some (k + C.length + "class".data.length + B.length +
        "static".data.length + A.length + "public".data.length) := by
  subst ht
  have h6 : runToks (.many1 isSpaceRe :: rest) (C ++ c :: u) =
      some (k + C.length) := runToks_many1_fwd hC hC0 hcw h
  have h5 : runToks (.lit "class".data :: .many1 isSpaceRe :: rest)
      ("class".data ++ (C ++ c :: u)) =
      some (k + C.length + "class".data.length) := runToks_lit_fwd h6
  have h5' : runToks (.lit "class".data :: .many1 isSpaceRe :: rest)
      ('c' :: ("lass".data ++ (C ++ c :: u))) =
      some (k + C.length + "class".data.length) := h5
  have h4 : runToks (.many1 isSpaceRe :: .lit "class".data ::
      .many1 isSpaceRe :: rest)
      (B ++ 'c' :: ("lass".data ++ (C ++ c :: u))) =
      some (k + C.length + "class".data.length + B.length) :=
    runToks_many1_fwd hB hB0 (by decide) h5'
  have h4' : runToks (.many1 isSpaceRe :: .lit "class".data ::
      .many1 isSpaceRe :: rest) (B ++ ("class".data ++ (C ++ c :: u))) =
      some (k + C.length + "class".data.length + B.length) := h4
  have h3 : runToks (.lit "static".data :: .many1 isSpaceRe ::
      .lit "class".data :: .many1 isSpaceRe :: rest)
      ("static".data ++ (B ++ ("class".data ++ (C ++ c :: u)))) =
      some (k + C.length + "class".data.length + B.length +
        "static".data.length) := runToks_lit_fwd h4'
  have h3' : runToks (.lit "static".data :: .many1 isSpaceRe ::
      .lit "class".data :: .many1 isSpaceRe :: rest)
      ('s' :: ("tatic".data ++ (B ++ ("class".data ++ (C ++ c :: u))))) =
      some (k + C.length + "class".data.length + B.length +
        "static".data.length) := h3
  have h2 : runToks (.many1 isSpaceRe :: .lit "static".data ::
      .many1 isSpaceRe :: .lit "class".data :: .many1 isSpaceRe :: rest)
      (A ++ 's' :: ("tatic".data ++ (B ++ ("class".data ++ (C ++ c :: u))))) =
      some (k + C.length + "class".data.length + B.length +
        "static".data.length + A.length) :=
    runToks_many1_fwd hA hA0 (by decide) h3'
  have h2' : runToks (.many1 isSpaceRe :: .lit "static".data ::
      .many1 isSpaceRe :: .lit "class".data :: .many1 isSpaceRe :: rest)
      (A ++ ("static".data ++ (B ++ ("class".data ++ (C ++ c :: u))))) =
      some (k + C.length + "class".data.length + B.length +
        "static".data.length + A.length) := h2
  exact runToks_lit_fwd h2'

/-- A chain running at the very start of a nonempty string is the leftmost
match. -/
theorem findTokMatch_cons_run {ts : List Tok} {c : Char} {rest : Str}
    {k : Nat} (h : runToks ts (c :: rest) = some k) :
    findTokMatch ts (c :: rest) = some (0, k) := by
  rw [findTokMatch, h]

/-- On a string shaped like a permission-class fragment, the class-name
extraction captures exactly the word run after `class`. -/
theorem extractClassName_decomp (A B C N : Str) (c : Char) (u : Str)
    (hA : A.all isSpaceRe = true) (hA0 : A ≠ [])
    (hB : B.all isSpaceRe = true) (hB0 : B ≠ [])
    (hC : C.all isSpaceRe = true) (hC0 : C ≠ [])
    (hN : N.all isWordChar = true) (hN0 : N ≠ [])
    (hc : isWordChar c = false) :
    extractClassName ("public".data ++ (A ++ ("static".data ++ (B ++
      ("class".data ++ (C ++ (N ++ c :: u))))))) = N := by
  obtain ⟨n₀, N', rfl⟩ := List.exists_cons_of_ne_nil hN0
  have hn₀ : isWordChar n₀ = true := by
    rw [List.all_cons, Bool.and_eq_true] at hN
    exact hN.1
  have htail : runToks [.many1 isWordChar] ((n₀ :: N') ++ c :: u) =
      some (0 + (n₀ :: N').length) :=
    runToks_many1_fwd hN (by simp) hc rfl
  have hrun := runToks_header_fwd hA hA0 hB hB0
    hC hC0 n₀ (N' ++ c :: u) (word_not_space hn₀) rfl htail
  unfold extractClassName
  have hrun2 : runToks
      [.lit "public".data, .many1 isSpaceRe, .lit "static".data,
       .many1 isSpaceRe, .lit "class".data, .many1 isSpaceRe,
       .many1 isWordChar]
      ('p' :: ("ublic".data ++ (A ++ ("static".data ++ (B ++ ("class".data ++
        (C ++ ((n₀ :: N') ++ c :: u)))))))) =
      some (0 + (n₀ :: N').length + C.length + "class".data.length +
        B.length + "static".data.length + A.length + "public".data.length) :=
    hrun
  have hfm : findTokMatch
      [.lit "public".data, .many1 isSpaceRe, .lit "static".data,
       .many1 isSpaceRe, .lit "class".data, .many1 isSpaceRe,
       .many1 isWordChar]
      ("public".data ++ (A ++ ("static".data ++ (B ++ ("class".data ++
        (C ++ ((n₀ :: N') ++ c :: u))))))) =
      some (0, 0 + (n₀ :: N').length + C.length + "class".data.length +
        B.length + "static".data.length + A.length + "public".data.length) :=
    findTokMatch_cons_run hrun2
  dsimp only
  rw [hfm]
  dsimp only
  rw [List.drop_zero]
  have hregroup : ("public".data ++ (A ++ ("static".data ++ (B ++
      ("class".data ++ (C ++ ((n₀ :: N') ++ c :: u))))))) =
      ("public".data ++ A ++ "static".data ++ B ++ "class".data ++ C ++
        (n₀ :: N')) ++ (c :: u) := by
    simp [List.append_assoc]
  have hlen : ("public".data ++ A ++ "static".data ++ B ++ "class".data ++
      C ++ (n₀ :: N')).length =
      0 + (n₀ :: N').length + C.length + "class".data.length + B.length +
        "static".data.length + A.length + "public".data.length := by
    simp [List.length_append]
    omega
  rw [hregroup, List.take_left' hlen, List.reverse_append]
  have hNrev : (n₀ :: N').reverse.all isWordChar = true := by
    rw [List.all_reverse]
    exact hN
  rw [takeWhile_append_all hNrev]
  rcases List.eq_nil_or_concat C with rfl | ⟨Ci, cl, rfl⟩
  · exact absurd rfl hC0
  · have hcl : isSpaceRe cl = true := by
      rw [List.concat_eq_append, List.all_append, Bool.and_eq_true] at hC
      have h2 := hC.2
      rw [List.all_cons, List.all_nil, Bool.and_true] at h2
      exact h2
    have hpre : ("public".data ++ A ++ "static".data ++ B ++ "class".data ++
        Ci.concat cl) =
        ("public".data ++ A ++ "static".data ++ B ++ "class".data ++ Ci) ++
          [cl] := by
      simp [List.concat_eq_append, List.append_assoc]
    rw [hpre, List.reverse_append, List.reverse_append,
      show ([cl] : Str).reverse = [cl] from rfl, List.cons_append,
      List.nil_append,
      show ((cl :: ("public".data ++ A ++ "static".data ++ B ++
        "class".data ++ Ci).reverse).takeWhile isWordChar) = [] from by
          simp [List.takeWhile_cons, space_not_word hcl],
      List.reverse_nil, List.nil_append, List.reverse_reverse]

/-- A string containing a permission-class-shaped region at some offset
passes the `containsClass` probe for the captured name. -/
theorem containsClass_decomp (x : Str) (p : Nat) (A B C N D u : Str)
    (hdrop : x.drop p = "public".data ++ (A ++ ("static".data ++ (B ++
      ("class".data ++ (C ++ (N ++ (D ++ '\x7b' :: u))))))))
    (hA : A.all isSpaceRe = true) (hA0 : A ≠ [])
    (hB : B.all isSpaceRe = true) (hB0 : B ≠ [])
    (hC : C.all isSpaceRe = true) (hC0 : C ≠ [])
    (hN : N.all isWordChar = true) (hN0 : N ≠ [])
    (hD : D.all isSpaceRe = true) :
    containsClass x N = true := by
  obtain ⟨n₀, N', rfl⟩ := List.exists_cons_of_ne_nil hN0
  have hn₀ : isWordChar n₀ = true := by
    rw [List.all_cons, Bool.and_eq_true] at hN
    exact hN.1
  have h8 : runToks [.lit ['\x7b']] ('\x7b' :: u) =
      some (0 + (['\x7b'] : Str).length) := runToks_lit_fwd rfl
  have h7 : runToks [.many0 isSpaceRe, .lit ['\x7b']] (D ++ '\x7b' :: u) =
      some (0 + (['\x7b'] : Str).length + D.length) :=
    runToks_many0_fwd hD (by decide) h8
  have h6 : runToks [.lit (n₀ :: N'), .many0 isSpaceRe, .lit ['\x7b']]
      ((n₀ :: N') ++ (D ++ '\x7b' :: u)) =
      some (0 + (['\x7b'] : Str).length + D.length + (n₀ :: N').length) :=
    runToks_lit_fwd h7
  have hrun := runToks_header_fwd
    hA hA0 hB hB0 hC hC0 n₀ (N' ++ (D ++ '\x7b' :: u))
    (word_not_space hn₀) rfl h6
  unfold containsClass scanToks
  apply findTokMatch_isSome_of_run x p
  rw [show classHeadToks (n₀ :: N') =
    [.lit "public".data, .many1 isSpaceRe, .lit "static".data,
     .many1 isSpaceRe, .lit "class".data, .many1 isSpaceRe, .lit (n₀ :: N'),
     .many0 isSpaceRe, .lit ['\x7b']] from rfl, hdrop]
  rw [show ("public".data ++ (A ++ ("static".data ++ (B ++ ("class".data ++
      (C ++ ((n₀ :: N') ++ (D ++ '\x7b' :: u)))))))) =
    ("public".data ++ (A ++ ("static".data ++ (B ++ ("class".data ++
      (C ++ (n₀ :: (N' ++ (D ++ '\x7b' :: u))))))))) from rfl, hrun]
  rfl

/-- Full decomposition of a successful run of the permission-class chain:
the string starts with `public\s+static\s+class\s+NAME\s*{[^}]*}` and the
match length covers exactly that region. -/
theorem runToks_permClass_decomp {s : Str} {k : Nat}
    (h : runToks permClassToks s = some k) :
    ∃ A B C N D E tail,
      s = "public".data ++ (A ++ ("static".data ++ (B ++ ("class".data ++
        (C ++ (N ++ (D ++ '\x7b' :: (E ++ '\x7d' :: tail)))))))) ∧
      s.take k = "public".data ++ (A ++ ("static".data ++ (B ++
        ("class".data ++ (C ++ (N ++ (D ++ '\x7b' :: (E ++ ['\x7d'])))))))) ∧
      A.all isSpaceRe = true ∧ A ≠ [] ∧ B.all isSpaceRe = true ∧ B ≠ [] ∧
      C.all isSpaceRe = true ∧ C ≠ [] ∧ N.all isWordChar = true ∧ N ≠ [] ∧
      D.all isSpaceRe = true := by
  unfold permClassToks at h
  obtain ⟨t1, k1, e1, h1, hk1⟩ := runToks_lit_inv h
  obtain ⟨A, t2, k2, e2, hA, hA0, hAlen, h2, hk2⟩ := runToks_many1_inv h1
  obtain ⟨t3, k3, e3, h3, hk3⟩ := runToks_lit_inv h2
  obtain ⟨B, t4, k4, e4, hB, hB0, hBlen, h4, hk4⟩ := runToks_many1_inv h3
  obtain ⟨t5, k5, e5, h5, hk5⟩ := runToks_lit_inv h4
  obtain ⟨C, t6, k6, e6, hC, hC0, hClen, h6, hk6⟩ := runToks_many1_inv h5
  obtain ⟨N, t7, k7, e7, hN, hN0, hNlen, h7, hk7⟩ := runToks_many1_inv h6
  obtain ⟨D, t8, k8, e8, hD, hDlen, h8, hk8⟩ := runToks_many0_inv h7
  obtain ⟨t9, k9, e9, h9, hk9⟩ := runToks_lit_inv h8
  obtain ⟨E, t10, k10, e10, hE, hElen, h10, hk10⟩ := runToks_many0_inv h9
  obtain ⟨t11, k11, e11, h11, hk11⟩ := runToks_lit_inv h10
  rw [runToks] at h11
  have hk0 : k11 = 0 := (Option.some_inj.mp h11).symm
  have hs : s = "public".data ++ (A ++ ("static".data ++ (B ++
      ("class".data ++ (C ++ (N ++ (D ++ '\x7b' :: (E ++ '\x7d' ::
        t11)))))))) := by
    rw [e1, e2, e3, e4, e5, e6, e7, e8, e9, e10, e11]
    simp [List.append_assoc]
  refine ⟨A, B, C, N, D, E, t11, hs, ?_, hA, hA0, hB, hB0, hC, hC0, hN,
    hN0, hD⟩
  have hsplit : s = ("public".data ++ (A ++ ("static".data ++ (B ++
      ("class".data ++ (C ++ (N ++ (D ++ '\x7b' :: (E ++ ['\x7d']))))))))) ++
      t11 := by
    rw [hs]
    simp [List.append_assoc]
  have hklen : ("public".data ++ (A ++ ("static".data ++ (B ++
      ("class".data ++ (C ++ (N ++ (D ++ '\x7b' ::
        (E ++ ['\x7d']))))))))).length = k := by
    rw [hk1, hk2, hk3, hk4, hk5, hk6, hk7, hk8, hk9, hk10, hk11, hk0]
    simp [List.length_append, List.length_cons,
      show ("public".data : Str).length = 6 from rfl,
      show ("static".data : Str).length = 6 from rfl,
      show ("class".data : Str).length = 5 from rfl,
      show (['\x7b'] : Str).length = 1 from rfl,
      show (['\x7d'] : Str).length = 1 from rfl]
    omega
  rw [hsplit, List.take_left' hklen]

/-- Every fragment extracted by the permission-class scan has a nonempty
class name, and the scanned content itself passes the `containsClass`
probe for that name. -/
theorem permFrag_spec (x frag : Str) (h : frag ∈ extractPermissionClasses x) :
    extractClassName frag ≠ [] ∧
      containsClass x (extractClassName frag) = true := by
  rw [extractPermissionClasses] at h
  obtain ⟨p, k, hrun, hfrag⟩ := mem_findAllToks x frag h
  obtain ⟨A, B, C, N, D, E, tail, hs, htake, hA, hA0, hB, hB0, hC, hC0,
    hN, hN0, hD⟩ := runToks_permClass_decomp hrun
  have hfragN : extractClassName frag = N := by
    rw [hfrag, htake]
    cases D with
    | nil =>
      rw [List.nil_append]
      exact extractClassName_decomp A B C N '\x7b' (E ++ ['\x7d'])
        hA hA0 hB hB0 hC hC0 hN hN0 (by decide)
    | cons d D' =>
      have hd : isSpaceRe d = true := by
        rw [List.all_cons, Bool.and_eq_true] at hD
        exact hD.1
      exact extractClassName_decomp A B C N d
        (D' ++ '\x7b' :: (E ++ ['\x7d']))
        hA hA0 hB hB0 hC hC0 hN hN0 (space_not_word hd)
  rw [hfragN]
  exact ⟨hN0, containsClass_decomp x p A B C N D (E ++ '\x7d' :: tail) hs
    hA hA0 hB hB0 hC hC0 hN hN0 hD⟩

/-- The class loop of `mergePermissions` when every scanned fragment's
name is already present: one conflict per fragment, nothing to add. -/
theorem mergePermissionsGo_all_conflict (x : Str) :
    ∀ (l : List Str) (cs : List Conflict),
    (∀ f ∈ l, extractClassName f ≠ [] ∧
      containsClass x (extractClassName f) = true) →
    (mergePermissionsGo x l cs []).2 = [] ∧
    (mergePermissionsGo x l cs []).1.length = cs.length + l.length
  | [], cs, _ => by
    rw [mergePermissionsGo]
    exact ⟨rfl, by simp⟩
  | f :: rest, cs, h => by
    have h1 := h f (List.mem_cons_self _ _)
    rw [mergePermissionsGo]
    dsimp only
    rw [if_neg h1.1, if_pos h1.2]
    have hrec := mergePermissionsGo_all_conflict x rest
      (cs ++ [{ ctype := .duplicateClass,
                description := "Class '".data ++ extractClassName f ++
                  "' already exists".data,
                existingCode := extractExistingClass x (extractClassName f),
                newCode := f,
                line := findClassLine x (extractClassName f) }])
      (fun f' hf' => h f' (List.mem_cons_of_mem _ hf'))
    refine ⟨hrec.1, ?_⟩
    rw [hrec.2, List.length_append]
    simp [Nat.add_assoc, Nat.add_comm 1]

/-- The class loop of `mergePermissions` when every scanned fragment's
name is absent: no conflicts, every fragment queued for insertion. -/
theorem mergePermissionsGo_all_add (x : Str) :
    ∀ (l ta : List Str),
    (∀ f ∈ l, extractClassName f ≠ [] ∧
      containsClass x (extractClassName f) = false) →
    mergePermissionsGo x l [] ta = ([], ta ++ l)
  | [], ta, _ => by rw [mergePermissionsGo, List.append_nil]
  | f :: rest, ta, h => by
    have h1 := h f (List.mem_cons_self _ _)
    rw [mergePermissionsGo]
    dsimp only
    rw [if_neg h1.1, if_neg (by simp [h1.2]),
      mergePermissionsGo_all_add x rest (ta ++ [f])
        (fun f' hf' => h f' (List.mem_cons_of_mem _ hf'))]
    simp

/-- Merging a permission registry with itself returns the text unchanged
and reports one already-exists conflict per extracted class fragment. -/
theorem mergePermissions_self (x : Str) :
    (mergePermissions x x).1 = x ∧
    (mergePermissions x x).2.length = (extractPermissionClasses x).length := by
  have hloop := mergePermissionsGo_all_conflict x (extractPermissionClasses x)
    [] (fun f hf => permFrag_spec x f hf)
  unfold mergePermissions
  rcases hE : mergePermissionsGo x (extractPermissionClasses x) [] []
    with ⟨cs, ta⟩
  rw [hE] at hloop
  have hta : ta = [] := hloop.1
  subst hta
  dsimp only
  rw [if_neg (by simp)]
  refine ⟨rfl, ?_⟩
  have := hloop.2
  simpa using this

/-- Claim C1 (counterexample): merge idempotence fails outside the
structured-data strategy.  Merging a permission registry with byte-equal
new content reports an already-exists conflict (conflicts ≠ ∅), and the
structural merge of an entity file with itself rewrites the using block,
dropping the comment line above it (merged ≠ existing). -/
theorem C1_idempotence_cex :
    (mergePermissions c1PermFile c1PermFile).2.length = 1 ∧
    (mergePermissions c1PermFile c1PermFile).1 = c1PermFile ∧
    astMerge c1EntityFile c1EntityFile FileType.entity =
      .ok (c1EntityMerged, []) ∧
    c1EntityMerged ≠ c1EntityFile := by
  refine ⟨by decide, by decide, ?_, by decide⟩
  rfl

/-- Claim C1 (amended): merging byte-equal content is idempotent only for
the structured-data strategy — a well-formed tree merged with itself gives
the tree back with no conflicts under every strategy tag.  The pattern
merge of a registry with itself leaves the text unchanged but reports one
already-exists conflict per extracted class fragment, and the structural
merge of a parseable (self-clean) file with itself reports no conflicts
but returns the using-block rewrite of the file, which need not be
byte-equal to it. -/
theorem C1_selfmerge_characterization
    (strategy : String) (t : JObj) (ht : jwfObj t = true)
    (x y : Str) (m : CSharpClass) (ft : FileType)
    (hm : parseClass y = some m)
    (hp : selfCleanProps m = true) (hq : selfCleanMethods m = true) :
    jsonMerge strategy t t = (t, []) ∧
    (mergePermissions x x).1 = x ∧
    (mergePermissions x x).2.length = (extractPermissionClasses x).length ∧
    astMerge y y ft =
      .ok (replaceUsings y (mergeUsingsGo [] (extractUsings y)), []) :=
  ⟨jsonMerge_self strategy t ht, (mergePermissions_self x).1,
   (mergePermissions_self x).2, astMerge_self y m ft hm hp hq⟩

/-- Witness for C1: the amended characterization evaluated at the S-style
one-key tree, the one-class registry and the commented entity file. -/
theorem C1_selfmerge_characterization_witness :
    jsonMerge "append" [("k", JValue.str "v")] [("k", JValue.str "v")] =
      ([("k", JValue.str "v")], []) ∧
    (mergePermissions c1PermFile c1PermFile).1 = c1PermFile ∧
    (mergePermissions c1PermFile c1PermFile).2.length =
      (extractPermissionClasses c1PermFile).length ∧
    astMerge c1EntityFile c1EntityFile FileType.entity =
      .ok (replaceUsings c1EntityFile
        (mergeUsingsGo [] (extractUsings c1EntityFile)), []) := by
  rcases hy : parseClass c1EntityFile with _ | m
  · exact absurd hy (by decide)
  · have hp : Option.map selfCleanProps (parseClass c1EntityFile) =
        some true := by decide
    have hq : Option.map selfCleanMethods (parseClass c1EntityFile) =
        some true := by decide
    rw [hy] at hp hq
    simp only [Option.map_some', Option.some_inj] at hp hq
    exact C1_selfmerge_characterization "append" [("k", JValue.str "v")]
      (by decide) c1PermFile c1EntityFile m FileType.entity hy hp hq

/-! ### Additivity lemmas (for claim C5) -/

/-- An infix of a string is an infix of any left extension. -/
theorem infix_append_left_of {f t : Str} (s : Str) (h : f <:+: t) :
    f <:+: s ++ t := by
  obtain ⟨u, v, rfl⟩ := h
  exact ⟨s ++ u, v, by simp⟩

/-- `intercalate` on a singleton block. -/
theorem intercalate_singletonStr (s a : Str) : List.intercalate s [a] = a := by
  simp [List.intercalate]

/-- `intercalate` peels one separator off a two-or-more block list. -/
theorem intercalate_cons₂ (s a b : Str) (t : List Str) :
    List.intercalate s (a :: b :: t) = a ++ s ++ List.intercalate s (b :: t) := by
  simp [List.intercalate, List.intersperse_cons_cons]

/-- `Join` over a nonempty tail adds one separator. -/
theorem joinLines_cons (l : Str) (ls : List Str) (h : ls ≠ []) :
    joinLines (l :: ls) = l ++ '\n' :: joinLines ls := by
  obtain ⟨l₂, ls', rfl⟩ := List.exists_cons_of_ne_nil h
  rw [joinLines, joinLines, intercalate_cons₂]
  simp

/-- `Join` of a singleton block. -/
theorem joinLines_singleton (l : Str) : joinLines [l] = l := by
  rw [joinLines, intercalate_singletonStr]

/-- `Join` distributes over the concatenation of nonempty line blocks. -/
theorem joinLines_append : ∀ (u v : List Str), u ≠ [] → v ≠ [] →
    joinLines (u ++ v) = joinLines u ++ '\n' :: joinLines v
  | [], _, hu, _ => absurd rfl hu
  | [u₀], v, _, hv => by
    rw [List.cons_append, List.nil_append, joinLines_cons u₀ v hv,
      joinLines_singleton]
  | u₀ :: u₁ :: u', v, _, hv => by
    rw [List.cons_append,
      joinLines_cons u₀ ((u₁ :: u') ++ v) (by simp),
      joinLines_append (u₁ :: u') v (by simp) hv,
      joinLines_cons u₀ (u₁ :: u') (by simp)]
    simp

/-- Every line is an infix of the join. -/
theorem mem_infix_joinLines : ∀ (ls : List Str) (f : Str), f ∈ ls →
    f <:+: joinLines ls
  | [l], f, h => by
    obtain rfl := List.mem_singleton.mp h
    rw [joinLines_singleton]
  | l :: l₂ :: ls', f, h => by
    rcases List.mem_cons.mp h with rfl | h'
    · rw [joinLines_cons f (l₂ :: ls') (by simp)]
      exact (List.prefix_append f _).isInfix
    · rw [joinLines_cons l (l₂ :: ls') (by simp)]
      have h1 := mem_infix_joinLines (l₂ :: ls') f h'
      obtain ⟨u, v, huv⟩ := h1
      exact infix_append_left_of l ⟨'\n' :: u, v, by rw [← huv]; simp⟩

/-- Every fragment is an infix of the double-newline intercalation. -/
theorem mem_infix_intercalate2 : ∀ (ls : List Str) (f : Str), f ∈ ls →
    f <:+: List.intercalate ('\n' :: ['\n']) ls
  | [l], f, h => by
    obtain rfl := List.mem_singleton.mp h
    rw [intercalate_singletonStr]
  | l :: l₂ :: ls', f, h => by
    rw [intercalate_cons₂]
    rcases List.mem_cons.mp h with rfl | h'
    · exact ⟨[], ['\n', '\n'] ++ List.intercalate ('\n' :: ['\n']) (l₂ :: ls'),
        by simp⟩
    · have h1 := mem_infix_intercalate2 (l₂ :: ls') f h'
      exact infix_append_left_of _ h1

/-- Splitting on newlines and joining gives back the text. -/
theorem joinLines_splitLines (x : Str) : joinLines (splitLines x) = x := by
  rw [joinLines, splitLines, List.intercalate_splitOn]

/-- The newline split is never the empty list of lines. -/
theorem splitLines_ne_nil (x : Str) : splitLines x ≠ [] :=
  List.splitOnP_ne_nil _ x

/-- A found index is within bounds. -/
theorem findIdx?_lt_length {α : Type} {p : α → Bool} {l : List α} {i : Nat}
    (h : l.findIdx? p = some i) : i < l.length := by
  have := List.findIdx?_eq_some_iff_findIdx_eq.mp h
  omega

/-- `insertBeforeClosingBrace` splices the insertion into the content:
the content splits into two halves that both survive, with the inserted
text between them. -/
theorem insertBeforeClosingBrace_splice (content toInsert : Str) :
    ∃ pre mid post, content = pre ++ post ∧
      insertBeforeClosingBrace content toInsert = pre ++ (mid ++ post) ∧
      toInsert <:+: mid := by
  unfold insertBeforeClosingBrace
  dsimp only
  rcases hfind : (splitLines content).reverse.findIdx?
      (fun line => trimSpace line = ['\x7d']) with _ | j
  · exact ⟨content, '\n' :: toInsert, [], by simp, by simp,
      ⟨['\n'], [], by simp⟩⟩
  · dsimp only
    have hlen : 0 < (splitLines content).length :=
      List.length_pos.mpr (splitLines_ne_nil content)
    rcases Nat.eq_zero_or_pos ((splitLines content).length - 1 - j)
      with hz | hpos
    · rw [hz, List.take_zero, List.drop_zero,
        show joinLines ([] : List Str) = [] from rfl, joinLines_splitLines]
      exact ⟨[], '\n' :: '\n' :: toInsert ++ ['\n'], content, by simp,
        by simp, ⟨'\n' :: ['\n'], ['\n'], by simp⟩⟩
    · have hilt : (splitLines content).length - 1 - j <
          (splitLines content).length := by omega
      have htk : (splitLines content).take
          ((splitLines content).length - 1 - j) ≠ [] := by
        intro hnil
        have hl := congrArg List.length hnil
        rw [List.length_take, List.length_nil] at hl
        omega
      have hdr : (splitLines content).drop
          ((splitLines content).length - 1 - j) ≠ [] := by
        intro hnil
        have hl := congrArg List.length hnil
        rw [List.length_drop, List.length_nil] at hl
        omega
      refine ⟨joinLines ((splitLines content).take
          ((splitLines content).length - 1 - j)) ++ ['\n'],
        '\n' :: toInsert ++ ['\n'],
        joinLines ((splitLines content).drop
          ((splitLines content).length - 1 - j)), ?_, ?_,
        ⟨['\n'], ['\n'], by simp⟩⟩
      · conv_lhs => rw [← joinLines_splitLines content,
          ← List.take_append_drop ((splitLines content).length - 1 - j)
            (splitLines content)]
        rw [joinLines_append _ _ htk hdr]
        simp
      · simp

/-- Merging a permission registry with class fragments disjoint by name
from the existing content: no conflicts, both halves of the existing text
survive, and every new fragment appears in the merged text. -/
theorem mergePermissions_disjoint (x y : Str)
    (hdisj : ∀ f ∈ extractPermissionClasses y,
      containsClass x (extractClassName f) = false) :
    (mergePermissions x y).2 = [] ∧
    (∃ pre mid post, x = pre ++ post ∧
      (mergePermissions x y).1 = pre ++ (mid ++ post)) ∧
    ∀ f ∈ extractPermissionClasses y, f <:+: (mergePermissions x y).1 := by
  have hloop := mergePermissionsGo_all_add x (extractPermissionClasses y) []
    (fun f hf => ⟨(permFrag_spec y f hf).1, hdisj f hf⟩)
  unfold mergePermissions
  rw [hloop]
  dsimp only
  rcases hcase : extractPermissionClasses y with _ | ⟨f₀, fs⟩
  · rw [if_neg (by simp)]
    exact ⟨rfl, ⟨x, [], [], by simp, by simp⟩, by simp⟩
  · rw [if_pos (by simp)]
    dsimp only
    rw [List.nil_append]
    obtain ⟨pre, mid, post, hx, hins, hinf⟩ :=
      insertBeforeClosingBrace_splice x
        (List.intercalate ('\n' :: ['\n']) (f₀ :: fs))
    refine ⟨rfl, ⟨pre, mid, post, hx, hins⟩, ?_⟩
    intro f hf
    rw [hins]
    have h1 : f <:+: List.intercalate ('\n' :: ['\n']) (f₀ :: fs) :=
      mem_infix_intercalate2 (f₀ :: fs) f hf
    have h2 : f <:+: mid := h1.trans hinf
    obtain ⟨u, v, huv⟩ := h2
    exact ⟨pre ++ u, v ++ post, by rw [← List.append_assoc, ← huv]; simp⟩

/-- `takeWhile` never yields more than the input. -/
theorem takeWhile_length_le (p : Char → Bool) :
    ∀ l : Str, (l.takeWhile p).length ≤ l.length
  | [] => Nat.le_refl 0
  | c :: l => by
    rw [List.takeWhile_cons]
    by_cases hc : p c = true
    · rw [if_pos hc, List.length_cons, List.length_cons]
      exact Nat.succ_le_succ (takeWhile_length_le p l)
    · rw [if_neg hc]
      simp

/-- A successful define-method match decomposes the string into the three
groups followed by the unmatched remainder, and consumes at least one
character. -/
theorem matchDefineAt_spec {s : Str} {len : Nat} {g1 g2 g3 : Str}
    (h : matchDefineAt s = some (len, g1, g2, g3)) :
    s = g1 ++ g2 ++ g3 ++ s.drop len ∧ 0 < len := by
  unfold matchDefineAt at h
  rcases hr : runToks defineMethodToks s with _ | k1 <;> rw [hr] at h <;>
    dsimp only at h
  · cases h
  · rcases hq : indexOfStr (s.drop k1) ['\x7d'] with _ | q <;> rw [hq] at h <;>
      dsimp only at h
    · cases h
    · injection h with h'
      injection h' with ha hb
      injection hb with hb1 hb2
      injection hb2 with hc1 hc2
      subst ha
      subst hb1
      subst hc1
      subst hc2
      have hw : (((s.drop k1).take q).reverse.takeWhile isSpaceRe).length ≤
          q := by
        calc (((s.drop k1).take q).reverse.takeWhile isSpaceRe).length
            ≤ ((s.drop k1).take q).reverse.length :=
              takeWhile_length_le _ _
          _ = ((s.drop k1).take q).length := List.length_reverse _
          _ ≤ q := by
              rw [List.length_take]
              exact Nat.min_le_left _ _
      set w := (((s.drop k1).take q).reverse.takeWhile isSpaceRe).length
        with hwdef
      have hG23 : (s.drop k1).take (q - w) ++
          ((s.drop k1).drop (q - w)).take (w + 1) =
          (s.drop k1).take (q + 1) := by
        rw [← List.take_add]
        congr 1
        omega
      have hdd : (s.drop k1).drop (q + 1) = s.drop (k1 + q + 1) := by
        rw [List.drop_drop]
        rfl
      refine ⟨?_, by omega⟩
      conv_lhs => rw [← List.take_append_drop k1 s,
        ← List.take_append_drop (q + 1) (s.drop k1)]
      rw [← hG23, ← hdd]
      simp [List.append_assoc]

/-- `ReplaceAllString` for the define pattern keeps the whole original
text as a sublist of the result. -/
theorem insertIntoDefineMethodGo_sublist (toInsert : Str) :
    ∀ (fuel : Nat) (s : Str),
      List.Sublist s (insertIntoDefineMethodGo toInsert fuel s)
  | 0, s => by
    rw [insertIntoDefineMethodGo]
  | _ + 1, [] => by
    rw [insertIntoDefineMethodGo]
  | fuel + 1, c :: rest => by
    rw [insertIntoDefineMethodGo]
    rcases hm : matchDefineAt (c :: rest) with _ | ⟨len, g1, g2, g3⟩ <;>
      dsimp only
    · exact List.Sublist.cons₂ c
        (insertIntoDefineMethodGo_sublist toInsert fuel rest)
    · obtain ⟨hdecomp, hlen⟩ := matchDefineAt_spec hm
      have hrec := insertIntoDefineMethodGo_sublist toInsert fuel
        ((c :: rest).drop len)
      have main : List.Sublist
          (g1 ++ (g2 ++ (g3 ++ (c :: rest).drop len)))
          (g1 ++ (g2 ++ ('\n' :: toInsert ++ (g3 ++
            insertIntoDefineMethodGo toInsert fuel ((c :: rest).drop len))))) :=
        (( ((hrec.append_left g3).trans
            (List.sublist_append_right ('\n' :: toInsert) _)).append_left
          g2).append_left g1)
      conv_lhs => rw [hdecomp]
      simpa [List.append_assoc] using main

/-- `ReplaceAllString` is the identity when the pattern never matches. -/
theorem insertIntoDefineMethodGo_id (toInsert : Str) :
    ∀ (fuel : Nat) (s : Str), hasDefineMatchGo fuel s = false →
      insertIntoDefineMethodGo toInsert fuel s = s
  | 0, s, _ => by rw [insertIntoDefineMethodGo]
  | _ + 1, [], _ => by rw [insertIntoDefineMethodGo]
  | fuel + 1, c :: rest, h => by
    rw [hasDefineMatchGo] at h
    rw [insertIntoDefineMethodGo]
    rcases hm : matchDefineAt (c :: rest) with _ | v <;> rw [hm] at h <;>
      dsimp only at h ⊢
    · rw [insertIntoDefineMethodGo_id toInsert fuel rest h]
    · cases h

/-- When the pattern matches somewhere, `ReplaceAllString` embeds the
inserted text into the result. -/
theorem insertIntoDefineMethodGo_infix (toInsert : Str) :
    ∀ (fuel : Nat) (s : Str), hasDefineMatchGo fuel s = true →
      toInsert <:+: insertIntoDefineMethodGo toInsert fuel s
  | 0, _, h => by rw [hasDefineMatchGo] at h; cases h
  | _ + 1, [], h => by rw [hasDefineMatchGo] at h; cases h
  | fuel + 1, c :: rest, h => by
    rw [hasDefineMatchGo] at h
    rw [insertIntoDefineMethodGo]
    rcases hm : matchDefineAt (c :: rest) with _ | ⟨len, g1, g2, g3⟩ <;>
      rw [hm] at h <;> dsimp only at h ⊢
    · obtain ⟨u, v, huv⟩ := insertIntoDefineMethodGo_infix toInsert fuel rest h
      exact ⟨c :: u, v, by rw [← huv]; simp⟩
    · exact ⟨g1 ++ g2 ++ ['\n'],
        g3 ++ insertIntoDefineMethodGo toInsert fuel ((c :: rest).drop len),
        by simp [List.append_assoc]⟩

/-- The provider statement loop with all statements absent: no conflicts,
every statement queued with its indentation. -/
theorem mergeProviderGo_all_add (x : Str) :
    ∀ (l ta : List Str), (∀ stmt ∈ l, strContains x stmt = false) →
      mergeProviderGo x l [] ta =
        ([], ta ++ l.map (fun stmt => "            ".data ++ stmt))
  | [], ta, _ => by
    rw [mergeProviderGo]
    simp
  | stmt :: rest, ta, h => by
    rw [mergeProviderGo,
      if_neg (by simp [h stmt (List.mem_cons_self _ _)]),
      mergeProviderGo_all_add x rest
        (ta ++ ["            ".data ++ stmt])
        (fun s hs => h s (List.mem_cons_of_mem _ hs))]
    simp

/-- Merging a permission provider whose new statements are all absent from
the existing content: no conflicts; the existing text survives as a
sublist; if the Define-method pattern does not match the existing content
the result is the existing text unchanged (the new statements are silently
dropped); if it does match, the indented statement block is embedded. -/
theorem mergePermissionProvider_disjoint (x y : Str)
    (hdisj : ∀ stmt ∈ findAllToks defineStmtToks y,
      strContains x stmt = false) :
    (mergePermissionProvider x y).2 = [] ∧
    List.Sublist x (mergePermissionProvider x y).1 ∧
    (hasDefineMatch x = false → (mergePermissionProvider x y).1 = x) ∧
    (hasDefineMatch x = true → findAllToks defineStmtToks y ≠ [] →
      joinLines ((findAllToks defineStmtToks y).map
        (fun stmt => "            ".data ++ stmt)) <:+:
        (mergePermissionProvider x y).1) := by
  have hloop := mergeProviderGo_all_add x (findAllToks defineStmtToks y) []
    hdisj
  unfold mergePermissionProvider
  dsimp only
  rw [hloop]
  dsimp only
  rcases hcase : findAllToks defineStmtToks y with _ | ⟨s₀, ss⟩
  · rw [if_neg (by simp)]
    exact ⟨rfl, List.Sublist.refl x, fun _ => rfl,
      fun _ hne => absurd rfl hne⟩
  · rw [if_pos (by simp)]
    dsimp only
    rw [List.nil_append]
    unfold insertIntoDefineMethod hasDefineMatch
    refine ⟨rfl, insertIntoDefineMethodGo_sublist _ _ x, ?_, ?_⟩
    · intro hfalse
      exact insertIntoDefineMethodGo_id _ _ x hfalse
    · intro htrue _
      exact insertIntoDefineMethodGo_infix _ _ x htrue

/-- The DbSet loop with every captured property name absent: no conflicts,
every capturable fragment queued with its indentation. -/
theorem mergeDbContextDbSetsGo_all_add (x : Str) :
    ∀ (l ta : List Str),
    (∀ ds ∈ l, ∀ cap, dbSetCaptures ds = some cap →
      strContains x (cap.2 ++ " \x7b".data) = false) →
    mergeDbContextDbSetsGo x l [] ta =
      ([], ta ++ (l.filter (fun ds => (dbSetCaptures ds).isSome)).map
        (fun ds => "    ".data ++ ds))
  | [], ta, _ => by
    rw [mergeDbContextDbSetsGo]
    simp
  | ds :: rest, ta, h => by
    rw [mergeDbContextDbSetsGo]
    rcases hcap : dbSetCaptures ds with _ | ⟨en, pn⟩ <;> dsimp only
    · rw [mergeDbContextDbSetsGo_all_add x rest ta
        (fun d hd => h d (List.mem_cons_of_mem _ hd)),
        List.filter_cons_of_neg (by simp [hcap])]
    · rw [if_neg (by simp [h ds (List.mem_cons_self _ _) (en, pn) hcap]),
        mergeDbContextDbSetsGo_all_add x rest (ta ++ ["    ".data ++ ds])
          (fun d hd => h d (List.mem_cons_of_mem _ hd)),
        List.filter_cons_of_pos (by simp [hcap])]
      simp [List.append_assoc]

/-- The configuration loop with every configuration line absent: every
line queued with its indentation. -/
theorem mergeDbContextConfigsGo_all_add (x : Str) :
    ∀ (l ta : List Str), (∀ cfg ∈ l, strContains x cfg = false) →
      mergeDbContextConfigsGo x l ta =
        ta ++ l.map (fun cfg => "            ".data ++ cfg)
  | [], ta, _ => by
    rw [mergeDbContextConfigsGo]
    simp
  | cfg :: rest, ta, h => by
    rw [mergeDbContextConfigsGo,
      if_pos (by simp [h cfg (List.mem_cons_self _ _)]),
      mergeDbContextConfigsGo_all_add x rest
        (ta ++ ["            ".data ++ cfg])
        (fun c hc => h c (List.mem_cons_of_mem _ hc))]
    simp

/-- A DbSet insertion anchor lies within the line count. -/
theorem dbInsertAnchor_le {content : Str} {i : Nat}
    (h : dbInsertAnchor content = some i) :
    i ≤ (splitLines content).length := by
  unfold dbInsertAnchor at h
  dsimp only at h
  rcases h1 : (splitLines content).reverse.findIdx? (fun line =>
      strContains line "DbSet<".data &&
      strContains line "\x7b get; set; \x7d".data) with _ | j <;>
    rw [h1] at h <;> dsimp only at h
  · exact Nat.le_of_lt (findIdx?_lt_length h)
  · have hlen : 0 < (splitLines content).length :=
      List.length_pos.mpr (splitLines_ne_nil content)
    injection h with h'
    omega

/-- A line-level insertion at an in-bounds index splices the inserted
block into the joined text: both halves of the original survive. -/
theorem joinLines_insert_splice (lines toAdd : List Str) (i : Nat)
    (hle : i ≤ lines.length) (hnil : lines ≠ []) :
    ∃ pre mid post, joinLines lines = pre ++ post ∧
      joinLines (lines.take i ++ toAdd ++ lines.drop i) =
        pre ++ (mid ++ post) := by
  rcases toAdd with _ | ⟨a, ta⟩
  · exact ⟨joinLines lines, [], [], by simp,
      by rw [List.append_nil, List.take_append_drop]; simp⟩
  · rcases Nat.eq_zero_or_pos i with hz | hpos
    · subst hz
      rw [List.take_zero, List.drop_zero, List.nil_append]
      rw [joinLines_append (a :: ta) lines (by simp) hnil]
      exact ⟨[], joinLines (a :: ta) ++ ['\n'], joinLines lines,
        by simp, by simp⟩
    · rcases Nat.lt_or_ge i lines.length with hlt | hge
      · have htk : lines.take i ≠ [] := by
          intro hn
          have hl := congrArg List.length hn
          rw [List.length_take, List.length_nil] at hl
          omega
        have hdr : lines.drop i ≠ [] := by
          intro hn
          have hl := congrArg List.length hn
          rw [List.length_drop, List.length_nil] at hl
          omega
        rw [List.append_assoc,
          joinLines_append (lines.take i) ((a :: ta) ++ lines.drop i) htk
            (by simp),
          joinLines_append (a :: ta) (lines.drop i) (by simp) hdr]
        refine ⟨joinLines (lines.take i) ++ ['\n'],
          joinLines (a :: ta) ++ ['\n'], joinLines (lines.drop i), ?_, ?_⟩
        · conv_lhs => rw [← List.take_append_drop i lines,
            joinLines_append (lines.take i) (lines.drop i) htk hdr]
          simp
        · simp
      · have hi : i = lines.length := by omega
        subst hi
        rw [List.take_length, List.drop_length, List.append_nil,
          joinLines_append lines (a :: ta) hnil (by simp)]
        exact ⟨joinLines lines, '\n' :: joinLines (a :: ta), [],
          by simp, by simp⟩

/-- Merging a data context whose new DbSets (by property name) and
configuration lines are all absent from the existing content: no
conflicts; if no insertion anchor exists the result is the existing text
unchanged (the additions are silently dropped); both halves of the
existing text always survive; and when an anchor exists every capturable
DbSet fragment and every configuration line is embedded in the result. -/
theorem mergeDbContext_disjoint (x y : Str)
    (hdb : ∀ ds ∈ findAllToks dbSetToks y, ∀ cap,
      dbSetCaptures ds = some cap →
      strContains x (cap.2 ++ " \x7b".data) = false)
    (hcfg : ∀ cfg ∈ findAllToks configToks y, strContains x cfg = false) :
    (mergeDbContext x y).2 = [] ∧
    (dbInsertAnchor x = none → (mergeDbContext x y).1 = x) ∧
    (∃ pre mid post, x = pre ++ post ∧
      (mergeDbContext x y).1 = pre ++ (mid ++ post)) ∧
    (∀ i, dbInsertAnchor x = some i →
      (∀ ds ∈ findAllToks dbSetToks y, (dbSetCaptures ds).isSome = true →
        "    ".data ++ ds <:+: (mergeDbContext x y).1) ∧
      (∀ cfg ∈ findAllToks configToks y,
        "            ".data ++ cfg <:+: (mergeDbContext x y).1)) := by
  have hloop1 := mergeDbContextDbSetsGo_all_add x (findAllToks dbSetToks y)
    [] hdb
  unfold mergeDbContext
  dsimp only
  rw [hloop1]
  dsimp only
  rw [List.nil_append,
    mergeDbContextConfigsGo_all_add x (findAllToks configToks y) _ hcfg]
  set dbAdd := ((findAllToks dbSetToks y).filter
      (fun ds => (dbSetCaptures ds).isSome)).map
    (fun ds => "    ".data ++ ds) with hdbAdd
  set cfgAdd := (findAllToks configToks y).map
    (fun cfg => "            ".data ++ cfg) with hcfgAdd
  rcases hta : dbAdd ++ cfgAdd with _ | ⟨a₀, ta⟩
  · rw [if_neg (by simp)]
    obtain ⟨hdbnil, hcfgnil⟩ := List.append_eq_nil.mp hta
    refine ⟨rfl, fun _ => rfl, ⟨x, [], [], by simp, by simp⟩, ?_⟩
    intro i _
    constructor
    · intro ds hds hsome
      exfalso
      have hmem : "    ".data ++ ds ∈ dbAdd := by
        rw [hdbAdd]
        exact List.mem_map.mpr ⟨ds, List.mem_filter.mpr ⟨hds, hsome⟩, rfl⟩
      rw [hdbnil] at hmem
      cases hmem
    · intro cfg hc
      exfalso
      have hmem : "            ".data ++ cfg ∈ cfgAdd := by
        rw [hcfgAdd]
        exact List.mem_map.mpr ⟨cfg, hc, rfl⟩
      rw [hcfgnil] at hmem
      cases hmem
  · rw [if_pos (by simp)]
    unfold insertDbSets
    dsimp only
    rcases hanchor : dbInsertAnchor x with _ | i
    · refine ⟨rfl, fun _ => rfl, ⟨x, [], [], by simp, by simp⟩, ?_⟩
      intro i hi
      exact absurd hi (by simp)
    · have hle := dbInsertAnchor_le hanchor
      obtain ⟨pre, mid, post, hx, hins⟩ := joinLines_insert_splice
        (splitLines x) (a₀ :: ta) i hle (splitLines_ne_nil x)
      rw [joinLines_splitLines] at hx
      refine ⟨rfl, ?_, ⟨pre, mid, post, hx, hins⟩, ?_⟩
      · intro hnone
        exact absurd hnone (by simp)
      intro i' hi'
      injection hi' with hii
      subst hii
      constructor
      · intro ds hds hsome
        apply mem_infix_joinLines
        refine List.mem_append.mpr (Or.inl (List.mem_append.mpr (Or.inr ?_)))
        rw [← hta, hdbAdd]
        exact List.mem_append.mpr (Or.inl
          (List.mem_map.mpr ⟨ds, List.mem_filter.mpr ⟨hds, hsome⟩, rfl⟩))
      · intro cfg hc
        apply mem_infix_joinLines
        refine List.mem_append.mpr (Or.inl (List.mem_append.mpr (Or.inr ?_)))
        rw [← hta, hcfgAdd]
        exact List.mem_append.mpr (Or.inr (List.mem_map.mpr ⟨cfg, hc, rfl⟩))

/-- Claim C5 (counterexample): pattern-merge additivity fails for the
data-context merge.  The existing context has no DbSet line and no
OnModelCreating line, so no insertion anchor exists: merging a disjoint
new DbSet yields no conflicts and returns the existing text unchanged —
the new identifier `Orders` is silently dropped. -/
theorem C5_dbcontext_dropped_cex :
    (mergeDbContext c5DbExisting c5DbNew).2 = [] ∧
    (mergeDbContext c5DbExisting c5DbNew).1 = c5DbExisting ∧
    (findAllToks dbSetToks c5DbNew).length = 1 ∧
    strContains c5DbExisting "Orders".data = false := by
  decide

/-- Claim C5 (amended): for disjoint new fragments, the registry merge is
unconditionally additive (no conflicts, both halves of the existing text
survive, every new fragment embedded); the provider merge reports no
conflicts and keeps the existing text as a sublist, but embeds the new
statements only when the Define-method pattern matches the existing
content — otherwise it returns the existing text unchanged; the
data-context merge reports no conflicts and keeps both halves of the
existing text, but embeds the new DbSets and configuration lines only
when an insertion anchor exists — otherwise it returns the existing text
unchanged. -/
theorem C5_pattern_additivity (x y : Str)
    (hreg : ∀ f ∈ extractPermissionClasses y,
      containsClass x (extractClassName f) = false)
    (hstmt : ∀ stmt ∈ findAllToks defineStmtToks y,
      strContains x stmt = false)
    (hdb : (findAllToks dbSetToks y).all (fun ds =>
      match dbSetCaptures ds with
      | some cap => !strContains x (cap.2 ++ " \x7b".data)
      | none => true) = true)
    (hcfg : ∀ cfg ∈ findAllToks configToks y, strContains x cfg = false) :
    ((mergePermissions x y).2 = [] ∧
      (∃ pre mid post, x = pre ++ post ∧
        (mergePermissions x y).1 = pre ++ (mid ++ post)) ∧
      ∀ f ∈ extractPermissionClasses y, f <:+: (mergePermissions x y).1) ∧
    ((mergePermissionProvider x y).2 = [] ∧
      List.Sublist x (mergePermissionProvider x y).1 ∧
      (hasDefineMatch x = false → (mergePermissionProvider x y).1 = x) ∧
      (hasDefineMatch x = true → findAllToks defineStmtToks y ≠ [] →
        joinLines ((findAllToks defineStmtToks y).map
          (fun stmt => "            ".data ++ stmt)) <:+:
          (mergePermissionProvider x y).1)) ∧
    ((mergeDbContext x y).2 = [] ∧
      (dbInsertAnchor x = none → (mergeDbContext x y).1 = x) ∧
      (∃ pre mid post, x = pre ++ post ∧
        (mergeDbContext x y).1 = pre ++ (mid ++ post)) ∧
      (∀ i, dbInsertAnchor x = some i →
        (∀ ds ∈ findAllToks dbSetToks y, (dbSetCaptures ds).isSome = true →
          "    ".data ++ ds <:+: (mergeDbContext x y).1) ∧
        (∀ cfg ∈ findAllToks configToks y,
          "            ".data ++ cfg <:+: (mergeDbContext x y).1))) :=
  ⟨mergePermissions_disjoint x y hreg,
   mergePermissionProvider_disjoint x y hstmt,
   mergeDbContext_disjoint x y
     (fun ds hds cap hcap => by
       have h1 := List.all_eq_true.mp hdb ds hds
       rw [hcap] at h1
       simpa using h1)
     hcfg⟩

/-- Witness for C5: the amended characterization evaluated at the
anchor-less data context and the disjoint new DbSet. -/
theorem C5_pattern_additivity_witness :
    (mergePermissions c5DbExisting c5DbNew).2 = [] ∧
    (mergePermissionProvider c5DbExisting c5DbNew).2 = [] ∧
    (mergeDbContext c5DbExisting c5DbNew).2 = [] ∧
    (dbInsertAnchor c5DbExisting = none →
      (mergeDbContext c5DbExisting c5DbNew).1 = c5DbExisting) := by
  have h := C5_pattern_additivity c5DbExisting c5DbNew (by decide) (by decide)
    (by decide) (by decide)
  exact ⟨h.1.1, h.2.1.1, h.2.2.1, h.2.2.2.1⟩

end AbpGen
